import Mathlib

/-!
Shallow embedding of the Seating-Orchestrator scheduling engine
(`src/app.js`, scheduler section, plus the duplicated roll-range
formatter of the server file) together with proofs of the spec claims.

JavaScript conventions are translated as follows: arrays become `List`,
objects with string keys become insertion-ordered association lists,
numbers that stay nonnegative integers become `Nat`, JS number slots that
can hold `NaN` become `Option Int` (`none` = `NaN`), and the one loop of
the source that can genuinely diverge (the round-robin distribution
`while` loop) makes the scheduler return `Option` (`none` = divergence).
`push` appends at the end of a list, `pop` removes the last element.
-/

namespace Seating

/-! ### Decimal rendering of naturals (JS template-string number output).
`natReprAux` is fuel-structured so that it reduces in the kernel; fuel
`n + 1` always suffices. -/

def digitChar (d : Nat) : Char := Char.ofNat (48 + d)

def natReprAux : Nat → Nat → List Char
  | 0, _ => []
  | fuel + 1, n =>
    if n < 10 then [digitChar n]
    else natReprAux fuel (n / 10) ++ [digitChar (n % 10)]

def natRepr (n : Nat) : String := String.mk (natReprAux (n + 1) n)

/-- Decimal value of a digit character. -/
def digitVal (c : Char) : Nat := c.toNat - 48

/-- Value of a digit string, most significant digit first. -/
def valL (cs : List Char) : Nat := cs.foldl (fun a c => a * 10 + digitVal c) 0

theorem valL_append (cs ds : List Char) :
    valL (cs ++ ds) = ds.foldl (fun a c => a * 10 + digitVal c) (valL cs) := by
  simp [valL, List.foldl_append]

theorem digitVal_digitChar {d : Nat} (h : d < 10) : digitVal (digitChar d) = d := by
  interval_cases d <;> decide

theorem valL_natReprAux : ∀ fuel n, n < fuel → valL (natReprAux fuel n) = n := by
  intro fuel
  induction fuel with
  | zero => intro n h; omega
  | succ fuel ih =>
    intro n h
    by_cases h10 : n < 10
    · simp [natReprAux, h10, valL, digitVal_digitChar h10]
    · have hlt : n / 10 < fuel := by
        have : n / 10 < n := Nat.div_lt_self (by omega) (by omega)
        omega
      simp only [natReprAux, if_neg h10, valL_append, ih _ hlt]
      have : digitVal (digitChar (n % 10)) = n % 10 :=
        digitVal_digitChar (Nat.mod_lt _ (by omega))
      simp [valL, this]
      omega

theorem natRepr_injective : Function.Injective natRepr := by
  intro m n h
  have hd : natReprAux (m + 1) m = natReprAux (n + 1) n := congrArg String.data h
  have := congrArg valL hd
  rwa [valL_natReprAux _ _ (Nat.lt_succ_self m), valL_natReprAux _ _ (Nat.lt_succ_self n)] at this

/-! ### Lexicographic string sort (JS default `Array.prototype.sort` on
strings compares code units; ties are equal strings, so stability is
immaterial). -/

def lexLe : List Char → List Char → Bool
  | [], _ => true
  | _ :: _, [] => false
  | a :: as, b :: bs =>
    if a.toNat < b.toNat then true
    else if b.toNat < a.toNat then false
    else lexLe as bs

def strLe (a b : String) : Bool := lexLe a.data b.data

def insertStr (s : String) : List String → List String
  | [] => [s]
  | x :: xs => if strLe s x then s :: x :: xs else x :: insertStr s xs

def sortStrings (l : List String) : List String := l.foldr insertStr []

theorem mem_insertStr {x s : String} {l : List String} :
    x ∈ insertStr s l ↔ x = s ∨ x ∈ l := by
  induction l with
  | nil => simp [insertStr]
  | cons y ys ih =>
    by_cases h : strLe s y = true
    · simp [insertStr, h]
    · simp [insertStr, h, ih]
      tauto

theorem mem_sortStrings {x : String} {l : List String} :
    x ∈ sortStrings l ↔ x ∈ l := by
  induction l with
  | nil => simp [sortStrings]
  | cons y ys ih =>
    simp [sortStrings, mem_insertStr] at *
    tauto

/-- Substring test (used to state what a diagnostic message mentions). -/
def strContains (hay pat : String) : Bool :=
  hay.data.tails.any (fun t => pat.data.isPrefixOf t)

/-! ### JS numbers that may be `NaN` (`none`), as produced by
`parseInt` / arithmetic on malformed input. -/

def jsNumStr : Option Int → String
  | none => "NaN"
  | some n => if n < 0 then "-" ++ natRepr n.natAbs else natRepr n.toNat

/-- JS `===` on numbers: `NaN` is equal to nothing, itself included. -/
def jsEq : Option Int → Option Int → Bool
  | some a, some b => a == b
  | _, _ => false

/-- JS `x + 1` on a number that may be `NaN`. -/
def jsSucc : Option Int → Option Int
  | some a => some (a + 1)
  | none => none

/-- JS `parseInt` on a character list (radix 10): optional whitespace,
optional sign, then leading digits; `NaN` (`none`) when no digit leads. -/
def parseIntL (cs : List Char) : Option Int :=
  let ws := cs.dropWhile (·.isWhitespace)
  let sgn : Int := if ws.head? = some '-' then -1 else 1
  let body := if ws.head? = some '-' ∨ ws.head? = some '+' then ws.tail else ws
  let ds := body.takeWhile (·.isDigit)
  if ds.isEmpty then none else some (sgn * valL ds)

def parseIntJS (s : String) : Option Int := parseIntL s.data

/-! ### The regex `/(\d+)-(\d+)/` of `formatRollRanges`.
A leftmost match of this pattern is determined by the first occurrence of
three consecutive characters digit, `'-'`, digit: group 1 is the maximal
digit run ending at that first digit, group 2 the maximal digit run
starting at that last digit.  `regexScan` scans for that occurrence
carrying the digit run that immediately precedes the current head. -/

def regexScan : List Char → List Char → Option (List Char × List Char)
  | acc, a :: b :: c :: rest =>
    if a.isDigit ∧ b = '-' ∧ c.isDigit then
      some (acc.reverse ++ [a], c :: rest.takeWhile (·.isDigit))
    else if a.isDigit then regexScan (a :: acc) (b :: c :: rest)
    else regexScan [] (b :: c :: rest)
  | _, _ => none

/-- Leftmost match of `/(\d+)-(\d+)/` on a roll string: `some (g1, g2)`
with the two capture groups, or `none` when the pattern does not occur. -/
def rollMatch (r : String) : Option (List Char × List Char) := regexScan [] r.data

/-- `app.js` numeric extraction: `match ? parseInt(match[2]) : parseInt(r)`. -/
def extractRollNum (r : String) : Option Int :=
  match rollMatch r with
  | some (_, g2) => parseIntL g2
  | none => parseIntJS r

/-- Span text `start === end ? start : start + " to " + end`. -/
def rangeStr (s e : Option Int) : String :=
  if jsEq s e then jsNumStr s else jsNumStr s ++ " to " ++ jsNumStr e

/-- The consecutive-merging loop of `formatRollRanges` (`app.js`). -/
def rangesFold : Option Int → Option Int → List (Option Int) → List String
  | start, e, [] => [rangeStr start e]
  | start, e, n :: rest =>
    if jsEq n (jsSucc e) then rangesFold start n rest
    else rangeStr start e :: rangesFold n n rest

/-- `formatRollRanges` of `app.js` (the summary-generator copy). -/
def formatRollRanges (rolls : List String) : String :=
  match rolls.map extractRollNum with
  | [] => ""
  | n :: rest => String.intercalate ", " (rangesFold n n rest)

/-! ### The second `formatRollRanges` (server file, report rendering):
keeps the prefix (group 1) of each roll and only merges runs with equal
prefixes, printing the prefix of a run that has one. -/

structure PRoll where
  pfx : String
  num : Option Int
deriving Repr, DecidableEq

/-- Numeric extraction of the report copy:
`match ? { prefix: match[1], num: parseInt(match[2]) } : { prefix: "", num: parseInt(r) }`. -/
def extractPRoll (r : String) : PRoll :=
  match rollMatch r with
  | some (g1, g2) => ⟨String.mk g1, parseIntL g2⟩
  | none => ⟨"", parseIntJS r⟩

def rangeStrP (s e : PRoll) : String :=
  if s.pfx ≠ "" then
    if jsEq s.num e.num then s.pfx ++ "-" ++ jsNumStr s.num
    else s.pfx ++ "-" ++ jsNumStr s.num ++ " to " ++ jsNumStr e.num
  else
    if jsEq s.num e.num then jsNumStr s.num
    else jsNumStr s.num ++ " to " ++ jsNumStr e.num

def rangesFoldP : PRoll → PRoll → List PRoll → List String
  | start, e, [] => [rangeStrP start e]
  | start, e, n :: rest =>
    if n.pfx = e.pfx ∧ jsEq n.num (jsSucc e.num) then rangesFoldP start n rest
    else rangeStrP start e :: rangesFoldP n n rest

/-- `formatRollRanges` of the server file (the report-rendering copy). -/
def formatRollRangesReport (rolls : List String) : String :=
  match rolls.map extractPRoll with
  | [] => ""
  | n :: rest => String.intercalate ", " (rangesFoldP n n rest)

/-! ### Data model (§3 of the scheduler source) -/

structure Student where
  roll : String
  name : String
  subject : String
  preferred_room : Option String
deriving Repr, DecidableEq

structure Room where
  room_id : String
  room_name : String
  num_benches : Nat
  seats_per_bench : Nat
deriving Repr, DecidableEq

structure Assignment where
  room_id : String
  room_name : String
  bench_number : Nat
  position : String
  student : Student
deriving Repr, DecidableEq

structure Conflict where
  type : String
  message : String
  room : Option String
  bench_number : Option Nat
deriving Repr, DecidableEq

structure Diagnostics where
  feasible : Bool
  conflicts : List Conflict
  suggestions : List String
deriving Repr, DecidableEq

structure SubjectEntry where
  subject : String
  count : Nat
  ranges : String
deriving Repr, DecidableEq

structure RoomSummary where
  room_id : String
  room_name : String
  total : Nat
  subjects : List SubjectEntry
  subject_counts : List (String × Nat)
deriving Repr, DecidableEq

structure ScheduleResult where
  success : Bool
  assignments : List Assignment
  diagnostics : Diagnostics
  room_summaries : List RoomSummary
deriving Repr, DecidableEq

structure Constraints where
  no_same_subject_bench : Bool
deriving Repr, DecidableEq

structure Options where
  algorithm : String
  constraints : Constraints
  seed : Option Nat
deriving Repr, DecidableEq

/-- Default `options` of a `schedule(students, rooms)` call. -/
def defaultOptions : Options := ⟨"greedy", ⟨true⟩, none⟩

/-! ### Grouping students by subject (insertion-ordered object keys) -/

abbrev Groups := List (String × List Student)

def addToGroup (gs : Groups) (s : Student) : Groups :=
  match gs with
  | [] => [(s.subject, [s])]
  | (k, v) :: rest =>
    if k = s.subject then (k, v ++ [s]) :: rest else (k, v) :: addToGroup rest s

def groupBySubject (students : List Student) : Groups :=
  students.foldl addToGroup []

/-- First group stored under a key (`groups[key]`), `[]` when absent. -/
def lookupGroup (gs : Groups) (k : String) : List Student :=
  ((gs.find? (fun e => e.1 = k)).map Prod.snd).getD []

def lookupLen (gs : Groups) (k : String) : Nat := (lookupGroup gs k).length

def groupTotal (gs : Groups) : Nat := (gs.map (fun e => e.2.length)).sum

def groupStudents (gs : Groups) : List Student := (gs.map Prod.snd).flatten

/-- `Math.max(...subjects.map(s => subjectGroups[s].length))`; the base `0`
only matters for an empty student list, where the feasibility comparison
`-Infinity > 0` of the source is false exactly as `0 > 0` is. -/
def maxSubjectCount (gs : Groups) : Nat :=
  (gs.map (fun e => e.2.length)).foldl max 0

/-! ### Bench-subject ordering: keys of nonempty groups sorted by
descending remaining count (stable, as JS `sort` is). -/

def insertByCount (gs : Groups) (k : String) : List String → List String
  | [] => [k]
  | x :: xs =>
    if lookupLen gs x ≤ lookupLen gs k then k :: x :: xs else x :: insertByCount gs k xs

def sortByCountDesc (gs : Groups) (l : List String) : List String :=
  l.foldr (insertByCount gs) []

def getSortedSubjects (gs : Groups) : List String :=
  sortByCountDesc gs ((gs.map Prod.fst).filter (fun k => 0 < lookupLen gs k))

/-- `roomSubjectGroups[chosen].pop()` followed by
`if (!roomSubjectGroups[chosen].length) delete roomSubjectGroups[chosen]`:
removes the last student of the first group stored under the key, dropping
the entry when it empties.  `(none, gs)` models the unreachable access to
an absent group. -/
def popGroup : Groups → String → Option Student × Groups
  | [], _ => (none, [])
  | (k, v) :: rest, c =>
    if k = c then
      match v.getLast? with
      | none => (none, (k, v) :: rest)
      | some s =>
        if v.dropLast = [] then (some s, rest) else (some s, (k, v.dropLast) :: rest)
    else
      let r := popGroup rest c
      (r.1, (k, v) :: r.2)

/-! ### Capacity, validation, shuffle -/

def totalCapacity (rooms : List Room) : Nat :=
  rooms.foldl (fun acc r => acc + r.num_benches * r.seats_per_bench) 0

/-- Duplicate-roll accumulation of `validateConstraints` (a growing `Set`
of seen rolls, an error per student whose roll was already seen). -/
def dupRollErrors (seen : List String) : List Student → List String
  | [] => []
  | s :: rest =>
    (if seen.contains s.roll then ["Duplicate roll number: " ++ s.roll] else []) ++
      dupRollErrors (s.roll :: seen) rest

/-- `validateConstraints(students, rooms)`: the room list is only tested
for emptiness, so the definition is generic in the room entry type. -/
def validateConstraints {ρ : Type} (students : List Student) (rooms : List ρ) : List String :=
  (if students.length = 0 then ["No students provided"] else []) ++
    (if rooms.length = 0 then ["No rooms provided"] else []) ++
      dupRollErrors [] students

def lcgNext (r : Nat) : Nat := (r * 9301 + 49297) % 233280

/-- One Fisher–Yates swap `t = arr[m]; arr[m] = arr[i]; arr[i] = t`. -/
def swapList (l : List Student) (i j : Nat) : List Student :=
  match l.get? i, l.get? j with
  | some a, some b => (l.set i b).set j a
  | _, _ => l

/-- The `while (m)` loop of `seededShuffle`; `m` counts down from the
array length, `i = Math.floor(random/233280 * m)` is exact here because
`random * m / 233280` never differs on the integer values involved. -/
def shuffleGo (arr : List Student) (r m : Nat) : List Student :=
  match m with
  | 0 => arr
  | mp + 1 =>
    let r2 := lcgNext r
    let i := r2 * (mp + 1) / 233280
    shuffleGo (swapList arr mp i) r2 mp

def seededShuffle (arr : List Student) (seed : Nat) : List Student :=
  shuffleGo arr seed arr.length

/-! ### Room distribution -/

structure RoomAlloc where
  room : Room
  students : List Student
  capacity : Nat
deriving Repr, DecidableEq

def initAllocs (rooms : List Room) : List RoomAlloc :=
  rooms.map (fun r => ⟨r, [], r.num_benches * r.seats_per_bench⟩)

/-- `roomAssignments.find(ra => ra.room.room_name === p || ra.room.room_id === p)`
followed by the capacity-guarded push; the `Bool` reports whether the
student was placed. -/
def prefAssign : List RoomAlloc → Student → String → List RoomAlloc × Bool
  | [], _, _ => ([], false)
  | ra :: rest, stu, p =>
    if ra.room.room_name = p ∨ ra.room.room_id = p then
      if ra.students.length < ra.capacity then
        ({ ra with students := ra.students ++ [stu] } :: rest, true)
      else (ra :: rest, false)
    else
      let r := prefAssign rest stu p
      (ra :: r.1, r.2)

/-- One student of the preferred-room pass. -/
def prefStep (acc : List RoomAlloc × List Student) (stu : Student) :
    List RoomAlloc × List Student :=
  match stu.preferred_room with
  | some p =>
    let r := prefAssign acc.1 stu p
    (r.1, if r.2 then acc.2 else acc.2 ++ [stu])
  | none => (acc.1, acc.2 ++ [stu])

/-- The preferred-room pass: returns the updated allocations and the
`unassignedStudents` list, in input order. -/
def preferredPass (ras : List RoomAlloc) (students : List Student) :
    List RoomAlloc × List Student :=
  students.foldl prefStep (ras, [])

def pushAt : List RoomAlloc → Nat → Student → List RoomAlloc
  | [], _, _ => []
  | ra :: rest, 0, stu => { ra with students := ra.students ++ [stu] } :: rest
  | ra :: rest, j + 1, stu => ra :: pushAt rest j stu

/-- The `while` loop that skips full rooms cycling the index.  `fuel`
probes suffice to visit every room once; the source loop spins forever
when every room is full, which surfaces as `none`. -/
def findNextRoom (ras : List RoomAlloc) : Nat → Nat → Option Nat
  | _, 0 => none
  | idx, fuel + 1 =>
    match ras.get? idx with
    | none => none
    | some ra =>
      if ra.students.length ≥ ra.capacity then
        findNextRoom ras ((idx + 1) % ras.length) fuel
      else some idx

/-- Round-robin distribution of `unassignedStudents`; `none` models the
source's divergence when no room ever frees up. -/
def distributeRR : List RoomAlloc → Nat → List Student → Option (List RoomAlloc)
  | ras, _, [] => some ras
  | ras, idx, stu :: rest =>
    match findNextRoom ras idx ras.length with
    | none => none
    | some j => distributeRR (pushAt ras j stu) ((j + 1) % ras.length) rest

/-! ### Per-room seat assignment -/

structure RunState where
  assignments : List Assignment
  conflicts : List Conflict
deriving Repr, DecidableEq

/-- Position label: `["left","right"][seatIdx]` when `seats_per_bench`
is 2 (with the `|| seat_N` fallback of the source), else `seat_N`. -/
def positionLabel (spb seatIdx : Nat) : String :=
  if spb = 2 then
    if seatIdx = 0 then "left"
    else if seatIdx = 1 then "right"
    else "seat_" ++ natRepr (seatIdx + 1)
  else "seat_" ++ natRepr (seatIdx + 1)

def constraintMsg (subject : String) (bench : Nat) (roomName : String) : String :=
  "Had to seat two " ++ subject ++ " students on bench " ++ natRepr bench ++
    " in " ++ roomName

/-- The inner seat loop of one bench
(`for seatIdx in 0..seatsPerBench-1 while remaining > 0`), fuel-recursive
on the seats left on the bench.  `bs` is the `benchSubjects` set. -/
def seatSeats (room : Room) (spb benchIdx : Nat) :
    Nat → Nat → List String → Groups → Nat → RunState → Groups × Nat × RunState
  | 0, _, _, gs, rem, st => (gs, rem, st)
  | fuel + 1, seatIdx, bs, gs, rem, st =>
    if rem = 0 then (gs, rem, st)
    else
      match getSortedSubjects gs with
      | [] => (gs, rem, st)
      | top :: restAvail =>
        let avail := top :: restAvail
        let found := avail.find? (fun sub => !(bs.contains sub))
        let chosen := found.getD top
        match popGroup gs chosen with
        | (none, _) => (gs, rem, st)
        | (some student, gs2) =>
          let a : Assignment :=
            ⟨room.room_id, room.room_name, benchIdx + 1, positionLabel spb seatIdx, student⟩
          let st2 : RunState := { st with assignments := st.assignments ++ [a] }
          match found with
          | some _ =>
            seatSeats room spb benchIdx fuel (seatIdx + 1)
              (bs ++ [student.subject]) gs2 (rem - 1) st2
          | none =>
            let c : Conflict :=
              ⟨"constraint", constraintMsg student.subject (benchIdx + 1) room.room_name,
                some room.room_name, some (benchIdx + 1)⟩
            seatSeats room spb benchIdx fuel (seatIdx + 1)
              bs gs2 (rem - 1) { st2 with conflicts := st2.conflicts ++ [c] }

/-- The bench loop (`for benchIdx in 0..B-1 while remaining > 0`, with the
`break` when no subjects are left). -/
def seatBenches (room : Room) (spb : Nat) :
    Nat → Nat → Groups → Nat → RunState → Groups × Nat × RunState
  | 0, _, gs, rem, st => (gs, rem, st)
  | fuel + 1, benchIdx, gs, rem, st =>
    if rem = 0 then (gs, rem, st)
    else
      match getSortedSubjects gs with
      | [] => (gs, rem, st)
      | _ :: _ =>
        let r := seatSeats room spb benchIdx spb 0 [] gs rem st
        seatBenches room spb fuel (benchIdx + 1) r.1 r.2.1 r.2.2

def overflowMsg (roomName : String) : String := "Not enough benches in " ++ roomName

/-- `seatsPerBench = room.seats_per_bench || 2` (JS falsy `0`). -/
def effSeats (room : Room) : Nat :=
  if room.seats_per_bench = 0 then 2 else room.seats_per_bench

/-- Result of the two seating loops of one room. -/
def seatRoomResult (ra : RoomAlloc) (st : RunState) : Groups × Nat × RunState :=
  seatBenches ra.room (effSeats ra.room) ra.room.num_benches 0
    (groupBySubject ra.students) ra.students.length st

/-- Seat one room's allocated students; the trailing `overflow` conflict
fires when students remain after all benches filled. -/
def assignRoomSeats (st : RunState) (ra : RoomAlloc) : RunState :=
  if 0 < (seatRoomResult ra st).2.1 then
    { (seatRoomResult ra st).2.2 with
      conflicts := (seatRoomResult ra st).2.2.conflicts ++
        [⟨"overflow", overflowMsg ra.room.room_name, some ra.room.room_name, none⟩] }
  else (seatRoomResult ra st).2.2

/-! ### Room summaries -/

def addCount (m : List (String × Nat)) (k : String) : List (String × Nat) :=
  match m with
  | [] => [(k, 1)]
  | (k2, n) :: rest => if k2 = k then (k2, n + 1) :: rest else (k2, n) :: addCount rest k

def addRoll (m : List (String × List String)) (k roll : String) :
    List (String × List String) :=
  match m with
  | [] => [(k, [roll])]
  | (k2, v) :: rest =>
    if k2 = k then (k2, v ++ [roll]) :: rest else (k2, v) :: addRoll rest k roll

def lookupRolls (m : List (String × List String)) (k : String) : List String :=
  ((m.find? (fun e => e.1 = k)).map Prod.snd).getD []

/-- All rolls stored in a subject-to-rolls association. -/
def rollsOf (m : List (String × List String)) : List String :=
  (m.map Prod.snd).flatten

def generateRoomSummaries (assignments : List Assignment) (rooms : List Room) :
    List RoomSummary :=
  rooms.map (fun room =>
    let roomAs := assignments.filter (fun a => a.room_id = room.room_id)
    let subjectCounts :=
      roomAs.foldl (fun m a => addCount m a.student.subject) []
    let subjectRanges :=
      roomAs.foldl (fun m a => addRoll m a.student.subject a.student.roll) []
    let formatted :=
      (sortStrings (subjectRanges.map Prod.fst)).map (fun subject =>
        let rolls := sortStrings (lookupRolls subjectRanges subject)
        SubjectEntry.mk subject rolls.length (formatRollRanges rolls))
    ⟨room.room_id, room.room_name, roomAs.length, formatted, subjectCounts⟩)

/-! ### The greedy scheduler and the `schedule` entry point -/

def capacityMsg (need have_ : Nat) : String :=
  "Not enough capacity. Need " ++ natRepr need ++ " seats but have " ++
    natRepr have_ ++ "."

def infeasibleMsg (count maxAllowed : Nat) : String :=
  "Subject with " ++ natRepr count ++
    " students cannot be seated with bench constraint. Maximum allowed: " ++
      natRepr maxAllowed

/-- The result record built at the end of a completed greedy run:
`success` is `feasible && conflicts.length === 0` with `feasible` true on
this path. -/
def finalizeRun (st : RunState) (rooms : List Room) : ScheduleResult :=
  ⟨decide (st.conflicts.length = 0), st.assignments,
    ⟨true, st.conflicts, []⟩, generateRoomSummaries st.assignments rooms⟩

def greedyPairScheduler (students : List Student) (rooms : List Room) :
    Option ScheduleResult :=
  if students.length > totalCapacity rooms then
    some ⟨false, [],
      ⟨false, [], [capacityMsg students.length (totalCapacity rooms)]⟩, []⟩
  else if maxSubjectCount (groupBySubject students) > (students.length + 1) / 2 then
    some ⟨false, [],
      ⟨false, [⟨"infeasible",
        infeasibleMsg (maxSubjectCount (groupBySubject students))
          ((students.length + 1) / 2), none, none⟩], []⟩, []⟩
  else
    match distributeRR (preferredPass (initAllocs rooms) students).1 0
        (preferredPass (initAllocs rooms) students).2 with
    | none => none
    | some ras => some (finalizeRun (ras.foldl assignRoomSeats ⟨[], []⟩) rooms)

/-- The students the algorithm actually processes (shuffled when a seed
is given, the input order otherwise). -/
def processedStudents (students : List Student) (opts : Options) : List Student :=
  match opts.seed with
  | none => students
  | some sd => seededShuffle students sd

/-- `schedule(students, rooms, options)`; the `algorithm` switch runs the
greedy scheduler for every tag, as in the source. -/
def schedule (students : List Student) (rooms : List Room) (opts : Options) :
    Option ScheduleResult :=
  if 0 < (validateConstraints students rooms).length then
    some ⟨false, [],
      ⟨false, (validateConstraints students rooms).map
        (fun e => ⟨"validation", e, none, none⟩), []⟩, []⟩
  else
    greedyPairScheduler (processedStudents students opts) rooms

/-! ### Spec-side definition of the roll-range compaction (claim C7).
These definitions follow the wording of the spec, to be compared with the
engine's `formatRollRanges`: sort lexically, extract the numeric suffix
(digits after the dash of a `prefix-digits` roll, the whole value of a
bare numeric roll), merge strictly consecutive integers into
`start to end` spans, emit singletons bare, join with `", "`. -/

/-- Recognizer of the roll shapes named by the claim: nonempty digits, or
nonempty digits, a dash, nonempty digits. -/
def wfRoll (r : String) : Bool :=
  let rest := r.data.dropWhile (·.isDigit)
  if rest.isEmpty then !r.data.isEmpty
  else
    (rest.head? = some '-') && (!(r.data.takeWhile (·.isDigit)).isEmpty) &&
      (!rest.tail.isEmpty) && rest.tail.all (·.isDigit)

/-- Spec wording: the digits after the dash of a `prefix-digits` roll, the
whole value of a bare numeric roll. -/
def specRollValue (r : String) : Nat :=
  let rest := r.data.dropWhile (·.isDigit)
  if rest.head? = some '-' then valL rest.tail else valL r.data

def specSpan (s e : Nat) : String :=
  if s = e then natRepr s else natRepr s ++ " to " ++ natRepr e

/-- Spec wording: walk the sorted values merging strictly consecutive
integers into spans. -/
def specSpans : Nat → Nat → List Nat → List String
  | s, e, [] => [specSpan s e]
  | s, e, n :: rest =>
    if n = e + 1 then specSpans s n rest else specSpan s e :: specSpans n n rest

/-- Spec-side ranges string of a subject's roll list. -/
def rollRangesSpec (rolls : List String) : String :=
  match (sortStrings rolls).map specRollValue with
  | [] => ""
  | n :: rest => String.intercalate ", " (specSpans n n rest)

/-! ### Malformed room fields (claim C6): JS values whose structural slots
may hold non-numbers, with `NaN`-propagating arithmetic and comparison.
`jsToNumber` models JS `ToNumber` on the values exercised here
(integers and integer-literal vs. non-numeric strings). -/

inductive JSVal where
  | num : Int → JSVal
  | str : String → JSVal
deriving Repr, DecidableEq

structure RawRoom where
  room_id : String
  room_name : String
  num_benches : JSVal
  seats_per_bench : JSVal
deriving Repr, DecidableEq

def jsToNumber : JSVal → Option Int
  | .num n => some n
  | .str s => if (!s.data.isEmpty) && s.data.all (·.isDigit) then some (valL s.data) else none

def jsMulV (a b : JSVal) : Option Int :=
  match jsToNumber a, jsToNumber b with
  | some x, some y => some (x * y)
  | _, _ => none

def jsAddO : Option Int → Option Int → Option Int
  | some x, some y => some (x + y)
  | _, _ => none

/-- `rooms.reduce((sum, r) => sum + r.num_benches * r.seats_per_bench, 0)`
over rooms with raw (possibly malformed) capacity fields. -/
def rawTotalCapacity (rooms : List RawRoom) : Option Int :=
  rooms.foldl (fun acc r => jsAddO acc (jsMulV r.num_benches r.seats_per_bench)) (some 0)

/-- JS `>` on numbers: false when either side is `NaN`. -/
def jsGT : Option Int → Option Int → Bool
  | some a, some b => decide (b < a)
  | _, _ => false

/-! ### Invariants and relations used by the claim statements -/

/-- Working subject groups are well formed: no empty group is stored and
every student sits in the group of its own subject. -/
def groupsWF (gs : Groups) : Prop :=
  ∀ e ∈ gs, e.2 ≠ [] ∧ ∀ s ∈ e.2, s.subject = e.1

/-- Two assignments do not claim the same (room_id, bench_number, position)
seat. -/
def seatTripleDistinct (a b : Assignment) : Prop :=
  ¬(a.room_id = b.room_id ∧ a.bench_number = b.bench_number ∧ a.position = b.position)

/-- Two assignments on the same bench of the same room carry different
subjects. -/
def benchSubjectSafe (a b : Assignment) : Prop :=
  a.room_id = b.room_id → a.bench_number = b.bench_number →
    a.student.subject ≠ b.student.subject

/-- Within one room: different bench or different position. -/
def benchPosDistinct (a b : Assignment) : Prop :=
  a.bench_number ≠ b.bench_number ∨ a.position ≠ b.position

/-- Within one room: same bench forces different subjects. -/
def benchSubjectDistinct (a b : Assignment) : Prop :=
  a.bench_number = b.bench_number → a.student.subject ≠ b.student.subject

def allocTotal (ras : List RoomAlloc) : Nat :=
  (ras.map (fun ra => ra.students.length)).sum

def allocCapTotal (ras : List RoomAlloc) : Nat := (ras.map (fun ra => ra.capacity)).sum

/-- Number of students currently allocated to the room at index `j`. -/
def allocLenAt (ras : List RoomAlloc) (j : Nat) : Nat :=
  ((ras.get? j).map (fun ra => ra.students.length)).getD 0

/-- Index of the first room matching a preferred-room string (by name or
id), mirroring the `find` of the preferred pass. -/
def matchRoomIdx (rooms : List Room) (p : String) : Option Nat :=
  rooms.findIdx? (fun r => r.room_name = p ∨ r.room_id = p)

/-! ### Concrete inputs used by counterexamples and witnesses -/

def emptyResult : ScheduleResult := ⟨false, [], ⟨false, [], []⟩, []⟩

/-- Two same-subject pairs and two rooms that share `room_id` "R1": the
scheduler succeeds yet reuses (room_id, bench, position) triples and puts
equal subjects on what the result claims is one bench. -/
def cexStudents : List Student :=
  [⟨"1", "S1", "A", none⟩, ⟨"2", "S2", "A", none⟩,
   ⟨"3", "S3", "B", none⟩, ⟨"4", "S4", "B", none⟩]

def cexRooms : List Room := [⟨"R1", "Room 1", 1, 2⟩, ⟨"R1", "Room 2", 1, 2⟩]

def cexRes : ScheduleResult :=
  (schedule cexStudents cexRooms defaultOptions).getD emptyResult

/-- Subject-distribution infeasibility instance: 3 of "BBA", 1 of "BCom". -/
def c3Students : List Student :=
  [⟨"1", "S1", "BBA", none⟩, ⟨"2", "S2", "BBA", none⟩,
   ⟨"3", "S3", "BBA", none⟩, ⟨"4", "S4", "BCom", none⟩]

def c3Rooms : List Room := [⟨"R1", "Room 1", 3, 2⟩]

def c3Res : ScheduleResult :=
  (schedule c3Students c3Rooms defaultOptions).getD emptyResult

def c5Res : ScheduleResult :=
  (schedule [] c3Rooms defaultOptions).getD emptyResult

/-- A small input on which scheduling fully succeeds. -/
def okStudents : List Student := [⟨"1", "S1", "A", none⟩, ⟨"2", "S2", "B", none⟩]

def okRooms : List Room := [⟨"R1", "Room 1", 1, 2⟩]

def okRes : ScheduleResult :=
  (schedule okStudents okRooms defaultOptions).getD emptyResult

/-- Two students who both prefer "Room 1". -/
def c8Students : List Student :=
  [⟨"1", "P1", "A", some "Room 1"⟩, ⟨"2", "P2", "B", some "Room 1"⟩]

def c8Rooms : List Room := [⟨"R1", "Room 1", 1, 2⟩, ⟨"R2", "Room 2", 1, 2⟩]

def c6Student : Student := ⟨"1", "S1", "A", none⟩

/-- A room whose `num_benches` is the non-numeric string "abc". -/
def c6Room : RawRoom := ⟨"R1", "Room 1", .str "abc", .num 2⟩

/-- The rolls of the students assigned to room `rid` carrying subject
`subject`, in assignment order: the list the summary generator's
per-subject grouping accumulates for that subject in that room. -/
def subjectRollsIn (assignments : List Assignment) (rid subject : String) :
    List String :=
  ((assignments.filter (fun a => a.room_id = rid)).filter
    (fun a => a.student.subject = subject)).map (fun a => a.student.roll)

/-- A concrete five-assignment room: four "BBA" students with the spec's
example rolls and one "BCom" student. -/
def c7As : List Assignment :=
  [⟨"R1", "Room 1", 1, "left", ⟨"10-1", "N1", "BBA", none⟩⟩,
   ⟨"R1", "Room 1", 1, "right", ⟨"10-2", "N2", "BBA", none⟩⟩,
   ⟨"R1", "Room 1", 2, "left", ⟨"10-3", "N3", "BBA", none⟩⟩,
   ⟨"R1", "Room 1", 2, "right", ⟨"10-5", "N4", "BBA", none⟩⟩,
   ⟨"R1", "Room 1", 3, "left", ⟨"7", "N5", "BCom", none⟩⟩]

def c7SRooms : List Room := [⟨"R1", "Room 1", 3, 2⟩]

/-- The summary the engine produces for `c7As` / `c7SRooms`. -/
def c7Sum : RoomSummary :=
  ⟨"R1", "Room 1", 5,
    [⟨"BBA", 4, "1 to 3, 5"⟩, ⟨"BCom", 1, "7"⟩],
    [("BBA", 4), ("BCom", 1)]⟩

/-- The "BBA" subject entry of `c7Sum`. -/
def c7Ent : SubjectEntry := ⟨"BBA", 4, "1 to 3, 5"⟩

/-! ## Theorems -/

/-! ### Character and digit facts -/

theorem ne_dash_of_isDigit {c : Char} (h : c.isDigit = true) : c ≠ '-' := by
  intro he
  subst he
  exact absurd h (by decide)

theorem ne_plus_of_isDigit {c : Char} (h : c.isDigit = true) : c ≠ '+' := by
  intro he
  subst he
  exact absurd h (by decide)

theorem not_ws_of_isDigit {c : Char} (h : c.isDigit = true) : c.isWhitespace = false := by
  cases hb : c.isWhitespace with
  | false => rfl
  | true =>
    simp only [Char.isWhitespace, Bool.or_eq_true, decide_eq_true_eq] at hb
    rcases hb with ((h1 | h1) | h1) | h1 <;> subst h1 <;> exact absurd h (by decide)

/-! ### `parseIntL` on pure digit strings -/

theorem dropWhile_ws_of_digits {cs : List Char} (h : ∀ c ∈ cs, c.isDigit = true) :
    cs.dropWhile (·.isWhitespace) = cs := by
  cases cs with
  | nil => rfl
  | cons c rest =>
    have : c.isWhitespace = false := not_ws_of_isDigit (h c (by simp))
    simp [List.dropWhile_cons, this]

theorem parseIntL_digits {cs : List Char} (h1 : cs ≠ [])
    (h2 : ∀ c ∈ cs, c.isDigit = true) : parseIntL cs = some ((valL cs : Nat) : Int) := by
  unfold parseIntL
  rw [dropWhile_ws_of_digits h2]
  cases cs with
  | nil => exact absurd rfl h1
  | cons c rest =>
    have hc : c.isDigit = true := h2 c (by simp)
    have hdash : ¬ ((c :: rest).head? = some '-') := by
      simp only [List.head?_cons, Option.some.injEq]
      exact ne_dash_of_isDigit hc
    have hplus : ¬ ((c :: rest).head? = some '+') := by
      simp only [List.head?_cons, Option.some.injEq]
      exact ne_plus_of_isDigit hc
    have hsgn : ¬ ((c :: rest).head? = some '-' ∨ (c :: rest).head? = some '+') := by
      tauto
    simp only []
    rw [if_neg hdash, if_neg hsgn]
    have htw : (c :: rest).takeWhile (·.isDigit) = c :: rest :=
      List.takeWhile_eq_self_iff.mpr (by simpa using h2)
    rw [htw]
    simp

/-! ### The regex scan on the roll shapes of the claims -/

theorem regexScan_all_digits :
    ∀ (n : Nat) (cs acc : List Char), cs.length ≤ n → (∀ c ∈ cs, c.isDigit = true) →
      regexScan acc cs = none := by
  intro n
  induction n with
  | zero =>
    intro cs acc hl _
    have : cs = [] := List.eq_nil_of_length_eq_zero (Nat.le_zero.mp hl)
    subst this
    rfl
  | succ n ih =>
    intro cs acc hl hd
    match cs with
    | [] => rfl
    | [a] => rfl
    | [a, b] => rfl
    | a :: b :: c :: rest =>
      have hb : b.isDigit = true := hd b (by simp)
      have ha : a.isDigit = true := hd a (by simp)
      have hcond : ¬(a.isDigit = true ∧ b = '-' ∧ c.isDigit = true) := by
        intro hx
        exact ne_dash_of_isDigit hb hx.2.1
      unfold regexScan
      rw [if_neg hcond, if_pos ha]
      apply ih (b :: c :: rest) (a :: acc)
      · simpa using Nat.le_of_succ_le_succ hl
      · intro x hx
        exact hd x (by simp at hx ⊢; tauto)

theorem regexScan_digits_dash :
    ∀ (ds : List Char) (acc tl : List Char), ds ≠ [] → (∀ c ∈ ds, c.isDigit = true) →
      tl ≠ [] → (∀ c ∈ tl, c.isDigit = true) →
      regexScan acc (ds ++ '-' :: tl) = some (acc.reverse ++ ds, tl) := by
  intro ds
  induction ds with
  | nil => intro acc tl h; exact absurd rfl h
  | cons d ds2 ih =>
    intro acc tl _ hds htl1 htl2
    have hd : d.isDigit = true := hds d (by simp)
    cases ds2 with
    | nil =>
      cases tl with
      | nil => exact absurd rfl htl1
      | cons c rest =>
        have hc : c.isDigit = true := htl2 c (by simp)
        show regexScan acc (d :: '-' :: c :: rest) = _
        unfold regexScan
        rw [if_pos ⟨hd, rfl, hc⟩]
        have : rest.takeWhile (·.isDigit) = rest :=
          List.takeWhile_eq_self_iff.mpr (by
            intro x hx
            simpa using htl2 x (by simp [hx]))
        simp [this]
    | cons d2 ds3 =>
      have hd2 : d2.isDigit = true := hds d2 (by simp)
      cases hx : ds3 ++ '-' :: tl with
      | nil => exact absurd hx (by simp)
      | cons c rest =>
        show regexScan acc (d :: d2 :: (ds3 ++ '-' :: tl)) = _
        rw [hx]
        have hcond : ¬(d.isDigit = true ∧ d2 = '-' ∧ c.isDigit = true) := by
          intro hy
          exact ne_dash_of_isDigit hd2 hy.2.1
        unfold regexScan
        rw [if_neg hcond, if_pos hd]
        rw [← hx]
        have := ih (d :: acc) tl (by simp) (fun x hx2 => hds x (by simp [hx2])) htl1 htl2
        rw [List.cons_append] at this
        rw [this]
        simp

/-! ### Engine extraction agrees with the spec wording on well-formed rolls -/

theorem extractRollNum_wf {r : String} (h : wfRoll r = true) :
    extractRollNum r = some ((specRollValue r : Nat) : Int) := by
  unfold wfRoll at h
  simp only [] at h
  by_cases hrest : (r.data.dropWhile (·.isDigit)).isEmpty = true
  · rw [if_pos hrest] at h
    have hne : r.data ≠ [] := by
      intro hz
      rw [hz] at h
      exact absurd h (by decide)
    have hall : ∀ c ∈ r.data, c.isDigit = true := by
      intro c hc
      exact List.dropWhile_eq_nil_iff.mp (List.isEmpty_iff.mp hrest) c hc
    have hmatch : rollMatch r = none :=
      regexScan_all_digits r.data.length r.data [] le_rfl hall
    have hd : (r.data.dropWhile (·.isDigit)).head? ≠ some '-' := by
      rw [List.isEmpty_iff.mp hrest]
      simp
    unfold extractRollNum
    rw [hmatch]
    unfold parseIntJS specRollValue
    rw [parseIntL_digits hne hall, if_neg hd]
  · rw [if_neg hrest] at h
    simp only [Bool.and_eq_true, decide_eq_true_eq, Bool.not_eq_eq_eq_not,
      Bool.not_true, List.all_eq_true, List.isEmpty_eq_false] at h
    obtain ⟨⟨⟨hdash, hpre⟩, htl⟩, htlall⟩ := h
    set ds := r.data.takeWhile (·.isDigit) with hds
    set rest := r.data.dropWhile (·.isDigit) with hrw
    have hsplit : r.data = ds ++ rest := (List.takeWhile_append_dropWhile _ _).symm
    have hrestform : rest = '-' :: rest.tail := by
      cases hr2 : rest with
      | nil => rw [hr2] at hrw hdash; simp at hdash
      | cons c tl =>
        rw [hr2] at hdash
        simp only [List.head?_cons, Option.some.injEq] at hdash
        subst hdash
        simp
    have hdsall : ∀ c ∈ ds, c.isDigit = true := by
      intro c hc
      simpa using List.mem_takeWhile_imp hc
    have htlall2 : ∀ c ∈ rest.tail, c.isDigit = true := by
      intro c hc
      simpa using htlall c hc
    have hmatch : rollMatch r = some (ds, rest.tail) := by
      unfold rollMatch
      rw [hsplit, hrestform]
      rw [regexScan_digits_dash ds [] rest.tail hpre hdsall htl htlall2]
      simp
    have hval : specRollValue r = valL rest.tail := by
      unfold specRollValue
      simp only []
      rw [← hrw, if_pos hdash]
    unfold extractRollNum
    rw [hmatch]
    show parseIntL rest.tail = some ((specRollValue r : Nat) : Int)
    rw [parseIntL_digits htl htlall2, hval]

/-! ### The merging loop over genuine integers matches the spec spans -/

theorem jsNumStr_natCast (n : Nat) : jsNumStr (some ((n : Nat) : Int)) = natRepr n := by
  show (if ((n : Nat) : Int) < 0 then "-" ++ natRepr ((n : Nat) : Int).natAbs
      else natRepr ((n : Nat) : Int).toNat) = natRepr n
  rw [if_neg (by omega)]
  simp

theorem rangeStr_natCast (s e : Nat) :
    rangeStr (some ((s : Nat) : Int)) (some ((e : Nat) : Int)) = specSpan s e := by
  unfold rangeStr specSpan jsEq
  by_cases h : s = e
  · subst h
    simp [jsNumStr_natCast]
  · have : ¬ (((s : Int)) == ((e : Int))) = true := by
      simp only [beq_iff_eq, Int.natCast_inj]
      exact h
    rw [if_neg this, if_neg h, jsNumStr_natCast, jsNumStr_natCast]

theorem rangesFold_natCast :
    ∀ (l : List Nat) (s e : Nat),
      rangesFold (some ((s : Nat) : Int)) (some ((e : Nat) : Int))
        (l.map (fun n => some ((n : Nat) : Int))) = specSpans s e l := by
  intro l
  induction l with
  | nil => intro s e; simp [rangesFold, specSpans, rangeStr_natCast]
  | cons n rest ih =>
    intro s e
    simp only [List.map_cons, rangesFold, specSpans, jsSucc, jsEq]
    by_cases h : n = e + 1
    · subst h
      rw [if_pos (by push_cast; simp), if_pos rfl, ih]
    · have : ¬ (((n : Int)) == ((e : Int)) + 1) = true := by
        simp only [beq_iff_eq]
        omega
      rw [if_neg this, if_neg h, ih, rangeStr_natCast]

/-! ### Rolls recorded by the summary generator come from the assignments -/

theorem rollsOf_cons (k : String) (v : List String) (rest : List (String × List String)) :
    rollsOf ((k, v) :: rest) = v ++ rollsOf rest := by
  simp [rollsOf]

theorem mem_rollsOf_addRoll {m : List (String × List String)} {k roll x : String}
    (h : x ∈ rollsOf (addRoll m k roll)) : x ∈ rollsOf m ∨ x = roll := by
  induction m with
  | nil => simpa [addRoll, rollsOf] using h
  | cons e rest ih =>
    rcases e with ⟨k2, v⟩
    by_cases he : k2 = k
    · simp only [addRoll, if_pos he, rollsOf_cons, List.mem_append,
        List.mem_singleton] at h ⊢
      tauto
    · simp only [addRoll, if_neg he, rollsOf_cons, List.mem_append] at h ⊢
      rcases h with h | h
      · exact Or.inl (Or.inl h)
      · rcases ih h with h2 | h2
        · exact Or.inl (Or.inr h2)
        · exact Or.inr h2

theorem mem_rollsOf_foldl {l : List Assignment} :
    ∀ (m : List (String × List String)) (x : String),
      x ∈ rollsOf (l.foldl (fun m a => addRoll m a.student.subject a.student.roll) m) →
      x ∈ rollsOf m ∨ ∃ a ∈ l, x = a.student.roll := by
  induction l with
  | nil => intro m x h; exact Or.inl h
  | cons a rest ih =>
    intro m x h
    rcases ih _ x h with h2 | h2
    · rcases mem_rollsOf_addRoll h2 with h3 | h3
      · exact Or.inl h3
      · exact Or.inr ⟨a, by simp, h3⟩
    · rcases h2 with ⟨b, hb, hx⟩
      exact Or.inr ⟨b, by simp [hb], hx⟩

theorem lookupRolls_sub_rollsOf {m : List (String × List String)} {k x : String}
    (h : x ∈ lookupRolls m k) : x ∈ rollsOf m := by
  unfold lookupRolls at h
  cases hf : m.find? (fun e => e.1 = k) with
  | none =>
    rw [hf] at h
    exact absurd h (by simp)
  | some e =>
    rw [hf] at h
    have he : x ∈ e.2 := by simpa using h
    have := List.mem_of_find?_eq_some hf
    simp only [rollsOf, List.mem_flatten]
    exact ⟨e.2, List.mem_map_of_mem Prod.snd this, he⟩

theorem lookupRolls_addRoll_self (m : List (String × List String)) (k roll : String) :
    lookupRolls (addRoll m k roll) k = lookupRolls m k ++ [roll] := by
  induction m with
  | nil =>
    unfold lookupRolls
    rw [show addRoll [] k roll = [(k, [roll])] from rfl,
      List.find?_cons_of_pos _ (by simp)]
    simp [List.find?]
  | cons e rest ih =>
    rcases e with ⟨k2, v⟩
    by_cases he : k2 = k
    · subst he
      unfold lookupRolls
      rw [show addRoll ((k2, v) :: rest) k2 roll = (k2, v ++ [roll]) :: rest from
          by simp [addRoll],
        List.find?_cons_of_pos _ (by simp), List.find?_cons_of_pos _ (by simp)]
      rfl
    · have hstep : addRoll ((k2, v) :: rest) k roll = (k2, v) :: addRoll rest k roll := by
        simp [addRoll, he]
      unfold lookupRolls at ih ⊢
      rw [hstep, List.find?_cons_of_neg _ (by simp [he]),
        List.find?_cons_of_neg _ (by simp [he])]
      exact ih

theorem lookupRolls_addRoll_ne (m : List (String × List String)) (k k' roll : String)
    (h : k ≠ k') : lookupRolls (addRoll m k roll) k' = lookupRolls m k' := by
  induction m with
  | nil =>
    unfold lookupRolls
    rw [show addRoll [] k roll = [(k, [roll])] from rfl,
      List.find?_cons_of_neg _ (by simp [h])]
  | cons e rest ih =>
    rcases e with ⟨k2, v⟩
    by_cases he : k2 = k
    · subst he
      unfold lookupRolls
      rw [show addRoll ((k2, v) :: rest) k2 roll = (k2, v ++ [roll]) :: rest from
          by simp [addRoll],
        List.find?_cons_of_neg _ (by simp [h]),
        List.find?_cons_of_neg _ (by simp [h])]
    · have hstep : addRoll ((k2, v) :: rest) k roll = (k2, v) :: addRoll rest k roll := by
        simp [addRoll, he]
      by_cases hk2 : k2 = k'
      · unfold lookupRolls
        rw [hstep, List.find?_cons_of_pos _ (by simp [hk2]),
          List.find?_cons_of_pos _ (by simp [hk2])]
      · unfold lookupRolls at ih ⊢
        rw [hstep, List.find?_cons_of_neg _ (by simp [hk2]),
          List.find?_cons_of_neg _ (by simp [hk2])]
        exact ih

theorem lookupRolls_foldl_addRoll (l : List Assignment) :
    ∀ (m : List (String × List String)) (subject : String),
      lookupRolls (l.foldl (fun m a => addRoll m a.student.subject a.student.roll) m)
          subject =
        lookupRolls m subject ++
          (l.filter (fun a => a.student.subject = subject)).map
            (fun a => a.student.roll) := by
  induction l with
  | nil =>
    intro m subject
    simp
  | cons a rest ih =>
    intro m subject
    simp only [List.foldl_cons]
    rw [ih]
    by_cases hs : a.student.subject = subject
    · rw [List.filter_cons_of_pos (by simp [hs]), List.map_cons, hs,
        lookupRolls_addRoll_self]
      simp
    · rw [List.filter_cons_of_neg (by simp [hs]),
        lookupRolls_addRoll_ne _ _ _ _ hs]

/-! ### Claim C7 -/

/-- C7: each subject entry of an engine room summary carries the ranges
string obtained by sorting exactly that subject's rolls in that room —
`subjectRollsIn`, the rolls of the assignments whose room_id and subject
match the summary and the entry — lexically and compacting them, and
when those rolls have the shapes the spec names (bare digits or
digits-dash-digits) that computation equals the compaction described by
the spec (`rollRangesSpec`); in particular the rolls
`["10-1","10-2","10-3","10-5"]` compact to `"1 to 3, 5"`. -/
theorem roomSummary_ranges_spec :
    (∀ (assignments : List Assignment) (rooms : List Room),
      ∀ s ∈ generateRoomSummaries assignments rooms, ∀ ent ∈ s.subjects,
        ent.ranges =
          formatRollRanges (sortStrings (subjectRollsIn assignments s.room_id ent.subject)) ∧
        ((∀ r ∈ subjectRollsIn assignments s.room_id ent.subject, wfRoll r = true) →
          ent.ranges = rollRangesSpec (subjectRollsIn assignments s.room_id ent.subject))) ∧
    formatRollRanges (sortStrings ["10-1", "10-2", "10-3", "10-5"]) = "1 to 3, 5" := by
  have key : ∀ rolls : List String, (∀ r ∈ rolls, wfRoll r = true) →
      formatRollRanges (sortStrings rolls) = rollRangesSpec rolls := by
    intro rolls h
    have hwf : ∀ r ∈ sortStrings rolls, wfRoll r = true :=
      fun r hr => h r (mem_sortStrings.mp hr)
    have hm : (sortStrings rolls).map extractRollNum =
        ((sortStrings rolls).map specRollValue).map (fun n => some ((n : Nat) : Int)) := by
      rw [List.map_map]
      exact List.map_congr_left (fun r hr => extractRollNum_wf (hwf r hr))
    unfold formatRollRanges rollRangesSpec
    rw [hm]
    cases (sortStrings rolls).map specRollValue with
    | nil => simp
    | cons n rest =>
      simp only [List.map_cons]
      rw [rangesFold_natCast]
  refine ⟨?_, by decide⟩
  intro assignments rooms s hs ent hent
  unfold generateRoomSummaries at hs
  rcases List.mem_map.mp hs with ⟨room, _, rfl⟩
  rcases List.mem_map.mp hent with ⟨subject, _, rfl⟩
  set roomAs := assignments.filter (fun a => a.room_id = room.room_id) with hroomAs
  set m := roomAs.foldl (fun m a => addRoll m a.student.subject a.student.roll) ([]) with hmdef
  have hsub : subjectRollsIn assignments room.room_id subject = lookupRolls m subject := by
    rw [hmdef, hroomAs, lookupRolls_foldl_addRoll]
    rfl
  constructor
  · show formatRollRanges (sortStrings (lookupRolls m subject)) =
      formatRollRanges (sortStrings (subjectRollsIn assignments room.room_id subject))
    rw [hsub]
  · intro hwfsub
    rw [hsub] at hwfsub
    show formatRollRanges (sortStrings (lookupRolls m subject)) =
      rollRangesSpec (subjectRollsIn assignments room.room_id subject)
    rw [hsub]
    exact key _ hwfsub

/-- C7 witness: the theorem at a five-assignment room holding the spec's
example "BBA" rolls next to a "BCom" student; the "BBA" entry's ranges
string is computed from exactly the "BBA" rolls and equals "1 to 3, 5". -/
theorem roomSummary_ranges_spec_witness :
    c7Sum ∈ generateRoomSummaries c7As c7SRooms ∧
    c7Ent ∈ c7Sum.subjects ∧
    subjectRollsIn c7As c7Sum.room_id c7Ent.subject = ["10-1", "10-2", "10-3", "10-5"] ∧
    (∀ r ∈ subjectRollsIn c7As c7Sum.room_id c7Ent.subject, wfRoll r = true) ∧
    c7Ent.ranges =
      formatRollRanges (sortStrings (subjectRollsIn c7As c7Sum.room_id c7Ent.subject)) ∧
    c7Ent.ranges = rollRangesSpec (subjectRollsIn c7As c7Sum.room_id c7Ent.subject) ∧
    c7Ent.ranges = "1 to 3, 5" :=
  ⟨by decide, by decide, by decide, by decide,
    (roomSummary_ranges_spec.1 c7As c7SRooms c7Sum (by decide) c7Ent (by decide)).1,
    (roomSummary_ranges_spec.1 c7As c7SRooms c7Sum (by decide) c7Ent (by decide)).2
      (by decide),
    by decide⟩

/-! ### Claim C4: the two `formatRollRanges` copies -/

theorem rangeStrP_pfx_empty (s e : Option Int) :
    rangeStrP ⟨"", s⟩ ⟨"", e⟩ = rangeStr s e := by
  unfold rangeStrP rangeStr
  simp

theorem rangesFoldP_pfx_empty :
    ∀ (l : List (Option Int)) (s e : Option Int),
      rangesFoldP ⟨"", s⟩ ⟨"", e⟩ (l.map (fun n => PRoll.mk "" n)) = rangesFold s e l := by
  intro l
  induction l with
  | nil =>
    intro s e
    simp [rangesFoldP, rangesFold, rangeStrP_pfx_empty]
  | cons n rest ih =>
    intro s e
    by_cases h : jsEq n (jsSucc e) = true
    · simp [rangesFoldP, rangesFold, h, ih]
    · simp [rangesFoldP, rangesFold, h, ih, rangeStrP_pfx_empty]

theorem extractPRoll_unmatched {r : String} (h : rollMatch r = none) :
    extractPRoll r = ⟨"", extractRollNum r⟩ := by
  simp [extractPRoll, extractRollNum, h]

/-- C4 counterexample: on the prefixed rolls `["10-1","10-2"]` the
summary-generator copy yields `"1 to 2"` while the report copy yields
`"10-1 to 2"`, so the two implementations are not extensionally equal. -/
theorem rollRanges_copies_differ :
    formatRollRanges ["10-1", "10-2"] ≠ formatRollRangesReport ["10-1", "10-2"] := by
  decide

/-- C4 amended: the two roll-range compactions agree on every roll list in
which no roll matches the `digits-dash-digits` pattern (in particular on
bare numeric rolls); they diverge on prefixed rolls. -/
theorem rollRanges_copies_agree_unmatched (rolls : List String)
    (h : ∀ r ∈ rolls, rollMatch r = none) :
    formatRollRanges rolls = formatRollRangesReport rolls := by
  have hm : rolls.map extractPRoll =
      (rolls.map extractRollNum).map (fun n => PRoll.mk "" n) := by
    rw [List.map_map]
    exact List.map_congr_left (fun r hr => extractPRoll_unmatched (h r hr))
  unfold formatRollRanges formatRollRangesReport
  rw [hm]
  cases rolls.map extractRollNum with
  | nil => simp
  | cons n rest =>
    simp only [List.map_cons]
    rw [rangesFoldP_pfx_empty]

/-- C4 witness: the amended agreement applied to the bare rolls
`["1","2","5"]`. -/
theorem rollRanges_copies_agree_unmatched_witness :
    (∀ r ∈ (["1", "2", "5"] : List String), rollMatch r = none) ∧
      formatRollRanges ["1", "2", "5"] = formatRollRangesReport ["1", "2", "5"] :=
  ⟨by decide, rollRanges_copies_agree_unmatched ["1", "2", "5"] (by decide)⟩

/-! ### Claim C3: the subject-distribution pre-check -/

theorem greedy_infeasible_subject (students : List Student) (rooms : List Room)
    (hcap : students.length ≤ totalCapacity rooms)
    (hmax : (students.length + 1) / 2 < maxSubjectCount (groupBySubject students)) :
    greedyPairScheduler students rooms =
      some ⟨false, [],
        ⟨false, [⟨"infeasible",
          infeasibleMsg (maxSubjectCount (groupBySubject students))
            ((students.length + 1) / 2), none, none⟩], []⟩, []⟩ := by
  unfold greedyPairScheduler
  rw [if_neg (by omega), if_pos hmax]

/-- C3 amended: when validation and the capacity pre-check pass and the
largest subject group of the processed student list exceeds
`ceil(n/2)`, `schedule` returns immediately with `success = false`, no
assignments, `feasible = false`, and a single `infeasible` conflict whose
message states the oversized group's size and the computed maximum — the
message does not name the subject itself. -/
theorem subject_infeasible_return (students : List Student) (rooms : List Room)
    (opts : Options)
    (hval : validateConstraints students rooms = [])
    (hcap : (processedStudents students opts).length ≤ totalCapacity rooms)
    (hmax : ((processedStudents students opts).length + 1) / 2 <
      maxSubjectCount (groupBySubject (processedStudents students opts))) :
    schedule students rooms opts =
      some ⟨false, [],
        ⟨false, [⟨"infeasible",
          infeasibleMsg (maxSubjectCount (groupBySubject (processedStudents students opts)))
            (((processedStudents students opts).length + 1) / 2), none, none⟩], []⟩, []⟩ := by
  unfold schedule
  rw [hval]
  rw [if_neg (by simp)]
  exact greedy_infeasible_subject _ _ hcap hmax

/-- C3 witness: the amended theorem at 3 "BBA" + 1 "BCom" students. -/
theorem subject_infeasible_return_witness :
    validateConstraints c3Students c3Rooms = [] ∧
    (processedStudents c3Students defaultOptions).length ≤ totalCapacity c3Rooms ∧
    ((processedStudents c3Students defaultOptions).length + 1) / 2 <
      maxSubjectCount (groupBySubject (processedStudents c3Students defaultOptions)) ∧
    schedule c3Students c3Rooms defaultOptions =
      some ⟨false, [],
        ⟨false, [⟨"infeasible",
          infeasibleMsg
            (maxSubjectCount (groupBySubject (processedStudents c3Students defaultOptions)))
            (((processedStudents c3Students defaultOptions).length + 1) / 2),
          none, none⟩], []⟩, []⟩ :=
  ⟨by decide, by decide, by decide,
    subject_infeasible_return c3Students c3Rooms defaultOptions
      (by decide) (by decide) (by decide)⟩

/-- C3 counterexample: the infeasible conflict emitted for the oversized
subject "BBA" never mentions "BBA" — its message only carries the group
size and the computed maximum — so the claim that the conflict names the
oversized subject is false. -/
theorem infeasible_message_omits_subject :
    schedule c3Students c3Rooms defaultOptions = some c3Res ∧
    c3Res.diagnostics.feasible = false ∧
    c3Res.diagnostics.conflicts = [⟨"infeasible", infeasibleMsg 3 2, none, none⟩] ∧
    (∀ c ∈ c3Res.diagnostics.conflicts, strContains c.message "BBA" = false) :=
  ⟨rfl, by decide, by decide, by decide⟩

/-! ### Claim C5: where `feasible` can become false, and what `success` is -/

theorem decide_length_eq_isEmpty (l : List Conflict) :
    decide (l.length = 0) = l.isEmpty := by
  cases l <;> simp

/-- C5 amended: on every path `success` is exactly
`feasible && conflicts.isEmpty`, but `feasible = false` arises not only
from the two structural pre-checks — a validation failure also sets it. -/
theorem success_iff_feasible_and_no_conflicts (students : List Student)
    (rooms : List Room) (opts : Options) (res : ScheduleResult)
    (hres : schedule students rooms opts = some res) :
    (res.success = (res.diagnostics.feasible && res.diagnostics.conflicts.isEmpty)) ∧
    (res.diagnostics.feasible = false →
      validateConstraints students rooms ≠ [] ∨
      totalCapacity rooms < (processedStudents students opts).length ∨
      ((processedStudents students opts).length + 1) / 2 <
        maxSubjectCount (groupBySubject (processedStudents students opts))) := by
  unfold schedule at hres
  by_cases hv : 0 < (validateConstraints students rooms).length
  · rw [if_pos hv] at hres
    have := Option.some.inj hres
    subst this
    exact ⟨rfl, fun _ => Or.inl (by intro hz; rw [hz] at hv; simp at hv)⟩
  · rw [if_neg hv] at hres
    unfold greedyPairScheduler at hres
    by_cases h1 : (processedStudents students opts).length > totalCapacity rooms
    · rw [if_pos h1] at hres
      have := Option.some.inj hres
      subst this
      exact ⟨rfl, fun _ => Or.inr (Or.inl h1)⟩
    · rw [if_neg h1] at hres
      by_cases h2 : maxSubjectCount (groupBySubject (processedStudents students opts)) >
          ((processedStudents students opts).length + 1) / 2
      · rw [if_pos h2] at hres
        have := Option.some.inj hres
        subst this
        exact ⟨rfl, fun _ => Or.inr (Or.inr h2)⟩
      · rw [if_neg h2] at hres
        cases hd : distributeRR
            (preferredPass (initAllocs rooms) (processedStudents students opts)).1 0
            (preferredPass (initAllocs rooms) (processedStudents students opts)).2 with
        | none =>
          rw [hd] at hres
          exact absurd hres (by simp)
        | some ras =>
          rw [hd] at hres
          have := Option.some.inj hres
          subst this
          refine ⟨?_, ?_⟩
          · simp only [finalizeRun]
            cases (List.foldl assignRoomSeats ⟨[], []⟩ ras).conflicts <;> simp
          · intro hfeas
            exact absurd hfeas (by simp [finalizeRun])

/-- C5 witness: the amended theorem at a successful concrete run. -/
theorem success_iff_feasible_witness :
    schedule okStudents okRooms defaultOptions = some okRes ∧
    okRes.success = (okRes.diagnostics.feasible && okRes.diagnostics.conflicts.isEmpty) :=
  ⟨rfl, (success_iff_feasible_and_no_conflicts okStudents okRooms defaultOptions okRes rfl).1⟩

/-- C5 counterexample: an empty student list is a validation failure, not
a structural pre-check failure, yet the returned diagnostics carry
`feasible = false`. -/
theorem validation_sets_feasible_false :
    schedule [] c3Rooms defaultOptions = some c5Res ∧
    c5Res.diagnostics.feasible = false ∧
    c5Res.diagnostics.conflicts = [⟨"validation", "No students provided", none, none⟩] :=
  ⟨rfl, by decide, by decide⟩

/-! ### Claim C6: malformed room capacity fields -/

/-- C6 (code bug): a room whose `num_benches` is the non-numeric string
"abc" passes `validateConstraints` untouched (room fields are never
inspected) and the capacity guard cannot fire because the computed total
capacity is `NaN` and the JS `>` comparison on `NaN` is false, so the
engine proceeds instead of failing closed with a validation error. -/
theorem malformed_room_not_validation :
    validateConstraints [c6Student] [c6Room] = [] ∧
    rawTotalCapacity [c6Room] = none ∧
    jsGT (some (([c6Student] : List Student).length : Int)) (rawTotalCapacity [c6Room])
      = false :=
  ⟨by decide, by decide, by decide⟩

/-! ### Subject-group bookkeeping -/

theorem groupTotal_cons (k : String) (v : List Student) (rest : Groups) :
    groupTotal ((k, v) :: rest) = v.length + groupTotal rest := by
  simp [groupTotal]

theorem groupStudents_cons (k : String) (v : List Student) (rest : Groups) :
    groupStudents ((k, v) :: rest) = v ++ groupStudents rest := by
  simp [groupStudents]

theorem groupTotal_addToGroup (gs : Groups) (s : Student) :
    groupTotal (addToGroup gs s) = groupTotal gs + 1 := by
  induction gs with
  | nil => simp [addToGroup, groupTotal]
  | cons e rest ih =>
    rcases e with ⟨k, v⟩
    by_cases h : k = s.subject
    · simp only [addToGroup, if_pos h, groupTotal_cons, List.length_append,
        List.length_singleton]
      omega
    · simp only [addToGroup, if_neg h, groupTotal_cons, ih]
      omega

theorem groupsWF_addToGroup {gs : Groups} (h : groupsWF gs) (s : Student) :
    groupsWF (addToGroup gs s) := by
  induction gs with
  | nil =>
    intro e he
    simp only [addToGroup, List.mem_singleton] at he
    subst he
    exact ⟨by simp, by simp⟩
  | cons e2 rest ih =>
    rcases e2 with ⟨k, v⟩
    by_cases hk : k = s.subject
    · intro e he
      simp only [addToGroup, if_pos hk, List.mem_cons] at he
      rcases he with he | he
      · subst he
        refine ⟨by simp, ?_⟩
        intro x hx
        rcases List.mem_append.mp hx with hx | hx
        · exact (h (k, v) (by simp)).2 x hx
        · simp only [List.mem_singleton] at hx
          subst hx
          exact hk.symm
      · exact h e (by simp [he])
    · intro e he
      simp only [addToGroup, if_neg hk, List.mem_cons] at he
      rcases he with he | he
      · subst he
        exact h (k, v) (by simp)
      · exact ih (fun e2 he2 => h e2 (by simp [he2])) e he

theorem groupStudents_addToGroup (gs : Groups) (s x : Student) :
    x ∈ groupStudents (addToGroup gs s) ↔ x ∈ groupStudents gs ∨ x = s := by
  induction gs with
  | nil => simp [addToGroup, groupStudents]
  | cons e rest ih =>
    rcases e with ⟨k, v⟩
    by_cases h : k = s.subject
    · simp only [addToGroup, if_pos h, groupStudents_cons, List.mem_append,
        List.mem_singleton]
      tauto
    · simp only [addToGroup, if_neg h, groupStudents_cons, List.mem_append, ih]
      tauto

theorem foldl_addToGroup_spec :
    ∀ (l : List Student) (gs : Groups), groupsWF gs →
      groupsWF (l.foldl addToGroup gs) ∧
      groupTotal (l.foldl addToGroup gs) = groupTotal gs + l.length ∧
      (∀ x, x ∈ groupStudents (l.foldl addToGroup gs) ↔ x ∈ groupStudents gs ∨ x ∈ l) := by
  intro l
  induction l with
  | nil => intro gs h; exact ⟨h, by simp, by simp⟩
  | cons s rest ih =>
    intro gs h
    obtain ⟨h1, h2, h3⟩ := ih (addToGroup gs s) (groupsWF_addToGroup h s)
    refine ⟨h1, ?_, ?_⟩
    · rw [List.foldl_cons] at *
      rw [h2, groupTotal_addToGroup]
      simp
      omega
    · intro x
      rw [List.foldl_cons, h3 x, groupStudents_addToGroup]
      simp
      tauto

theorem groupBySubject_wf (l : List Student) : groupsWF (groupBySubject l) :=
  (foldl_addToGroup_spec l [] (by intro e he; simp at he)).1

theorem groupBySubject_total (l : List Student) :
    groupTotal (groupBySubject l) = l.length := by
  have := (foldl_addToGroup_spec l [] (by intro e he; simp at he)).2.1
  simpa [groupBySubject, groupTotal] using this

theorem mem_groupBySubject {l : List Student} {x : Student} :
    x ∈ groupStudents (groupBySubject l) ↔ x ∈ l := by
  have := (foldl_addToGroup_spec l [] (by intro e he; simp at he)).2.2 x
  simpa [groupBySubject, groupStudents] using this

/-! ### Sorted subject keys -/

theorem mem_insertByCount {gs : Groups} {x k : String} {l : List String} :
    x ∈ insertByCount gs k l ↔ x = k ∨ x ∈ l := by
  induction l with
  | nil => simp [insertByCount]
  | cons y ys ih =>
    by_cases h : lookupLen gs y ≤ lookupLen gs k
    · simp [insertByCount, h]
    · simp [insertByCount, h, ih]
      tauto

theorem mem_sortByCountDesc {gs : Groups} {x : String} {l : List String} :
    x ∈ sortByCountDesc gs l ↔ x ∈ l := by
  induction l with
  | nil => simp [sortByCountDesc]
  | cons y ys ih =>
    simp only [sortByCountDesc, List.foldr_cons, mem_insertByCount] at *
    simp [ih]

theorem lookupLen_pos_of_mem_sorted {gs : Groups} {k : String}
    (h : k ∈ getSortedSubjects gs) : 0 < lookupLen gs k := by
  unfold getSortedSubjects at h
  have h2 := mem_sortByCountDesc.mp h
  have h3 := List.mem_filter.mp h2
  exact of_decide_eq_true h3.2

theorem lookupGroup_cons_self {k2 : String} {v : List Student} {rest : Groups}
    {k : String} (h : k2 = k) : lookupGroup ((k2, v) :: rest) k = v := by
  unfold lookupGroup
  rw [List.find?_cons_of_pos _ (by simp [h])]
  rfl

theorem lookupGroup_cons_ne {k2 : String} {v : List Student} {rest : Groups}
    {k : String} (h : ¬ k2 = k) : lookupGroup ((k2, v) :: rest) k = lookupGroup rest k := by
  unfold lookupGroup
  rw [List.find?_cons_of_neg _ (by simp [h])]

theorem getSortedSubjects_ne_nil {gs : Groups} (hwf : groupsWF gs)
    (h : 0 < groupTotal gs) : getSortedSubjects gs ≠ [] := by
  cases gs with
  | nil => simp [groupTotal] at h
  | cons e rest =>
    rcases e with ⟨k, v⟩
    have hv : v ≠ [] := (hwf (k, v) (by simp)).1
    have hlen : 0 < lookupLen (( k, v) :: rest) k := by
      unfold lookupLen
      rw [lookupGroup_cons_self rfl]
      exact List.length_pos.mpr hv
    have hmem : k ∈ getSortedSubjects ((k, v) :: rest) := by
      unfold getSortedSubjects
      exact mem_sortByCountDesc.mpr
        (List.mem_filter.mpr ⟨by simp, decide_eq_true hlen⟩)
    exact List.ne_nil_of_mem hmem

/-! ### Popping a student from a group -/

theorem popGroup_spec {gs : Groups} {k : String} (hwf : groupsWF gs)
    (hlen : 0 < lookupLen gs k) :
    ∃ stu gs2, popGroup gs k = (some stu, gs2) ∧ stu.subject = k ∧ groupsWF gs2 ∧
      groupTotal gs2 + 1 = groupTotal gs ∧
      (∀ x, x ∈ groupStudents gs → x ∈ groupStudents gs2 ∨ x = stu) := by
  induction gs with
  | nil => simp [lookupLen, lookupGroup] at hlen
  | cons e rest ih =>
    rcases e with ⟨k2, v⟩
    by_cases hk : k2 = k
    · have hv : lookupGroup ((k2, v) :: rest) k = v := lookupGroup_cons_self hk
      have hvne : v ≠ [] := by
        intro hz
        rw [lookupLen, hv, hz] at hlen
        simp at hlen
      cases hg : v.getLast? with
      | none => exact absurd (List.getLast?_eq_none_iff.mp hg) hvne
      | some s =>
        have hsplit : v.dropLast ++ [s] = v := by
          have h2 := List.dropLast_concat_getLast hvne
          have hgl := List.getLast?_eq_getLast v hvne
          rw [hg] at hgl
          rw [(Option.some.inj hgl).symm] at h2
          exact h2
        have hsmem : s ∈ v := by
          rw [← hsplit]
          simp
        have hsubj : s.subject = k := by
          rw [(hwf (k2, v) (by simp)).2 s hsmem]
          exact hk
        by_cases hd : v.dropLast = []
        · refine ⟨s, rest, ?_, hsubj, ?_, ?_, ?_⟩
          · simp [popGroup, hk, hg, hd]
          · intro e he
            exact hwf e (by simp [he])
          · have hv1 : v = [s] := by rw [← hsplit, hd]; rfl
            rw [groupTotal_cons, hv1]
            simp only [List.length_singleton]
            omega
          · intro x hx
            rw [groupStudents_cons] at hx
            rcases List.mem_append.mp hx with hx | hx
            · right
              have hv1 : v = [s] := by rw [← hsplit, hd]; rfl
              rw [hv1] at hx
              simpa using hx
            · left
              exact hx
        · refine ⟨s, (k2, v.dropLast) :: rest, ?_, hsubj, ?_, ?_, ?_⟩
          · simp [popGroup, hk, hg, hd]
          · intro e he
            rcases List.mem_cons.mp he with he | he
            · subst he
              refine ⟨hd, ?_⟩
              intro x hx
              exact (hwf (k2, v) (by simp)).2 x (List.Sublist.mem hx (List.dropLast_sublist v))
            · exact hwf e (by simp [he])
          · rw [groupTotal_cons, groupTotal_cons]
            have : v.dropLast.length + 1 = v.length := by
              rw [List.length_dropLast]
              have := List.length_pos.mpr hvne
              omega
            omega
          · intro x hx
            rw [groupStudents_cons] at hx
            rcases List.mem_append.mp hx with hx | hx
            · rw [← hsplit] at hx
              rcases List.mem_append.mp hx with hx | hx
              · left
                rw [groupStudents_cons]
                exact List.mem_append.mpr (Or.inl hx)
              · right
                simpa using hx
            · left
              rw [groupStudents_cons]
              exact List.mem_append.mpr (Or.inr hx)
    · have hlen2 : 0 < lookupLen rest k := by
        rwa [lookupLen, lookupGroup_cons_ne hk] at hlen
      obtain ⟨stu, gs2, hpop, hsubj, hwf2, htot, hmem⟩ :=
        ih (fun e he => hwf e (by simp [he])) hlen2
      refine ⟨stu, (k2, v) :: gs2, ?_, hsubj, ?_, ?_, ?_⟩
      · simp [popGroup, hk, hpop]
      · intro e he
        rcases List.mem_cons.mp he with he | he
        · subst he
          exact hwf (k2, v) (by simp)
        · exact hwf2 e he
      · rw [groupTotal_cons, groupTotal_cons]
        omega
      · intro x hx
        rw [groupStudents_cons] at hx
        rcases List.mem_append.mp hx with hx | hx
        · left
          rw [groupStudents_cons]
          exact List.mem_append.mpr (Or.inl hx)
        · rcases hmem x hx with h2 | h2
          · left
            rw [groupStudents_cons]
            exact List.mem_append.mpr (Or.inr h2)
          · right
            exact h2

/-! ### Position labels are injective in the seat index -/

theorem seat_label_inj {m n : Nat} (h : "seat_" ++ natRepr m = "seat_" ++ natRepr n) :
    m = n := by
  have hd := congrArg String.data h
  rw [String.data_append, String.data_append] at hd
  have hd2 := List.append_cancel_left hd
  have : natRepr m = natRepr n := by
    unfold natRepr
    unfold natRepr at hd2
    exact congrArg String.mk hd2
  exact natRepr_injective this

theorem left_ne_seat (n : Nat) : ("left" : String) ≠ "seat_" ++ natRepr n := by
  intro h
  have hd := congrArg String.data h
  rw [String.data_append] at hd
  have hh := congrArg List.head? hd
  rw [show ("left" : String).data = ['l', 'e', 'f', 't'] from rfl,
    show ("seat_" : String).data = ['s', 'e', 'a', 't', '_'] from rfl] at hh
  simp at hh

theorem right_ne_seat (n : Nat) : ("right" : String) ≠ "seat_" ++ natRepr n := by
  intro h
  have hd := congrArg String.data h
  rw [String.data_append] at hd
  have hh := congrArg List.head? hd
  rw [show ("right" : String).data = ['r', 'i', 'g', 'h', 't'] from rfl,
    show ("seat_" : String).data = ['s', 'e', 'a', 't', '_'] from rfl] at hh
  simp at hh

theorem positionLabel_inj {spb i j : Nat} (h : positionLabel spb i = positionLabel spb j) :
    i = j := by
  unfold positionLabel at h
  by_cases h2 : spb = 2
  · rw [if_pos h2, if_pos h2] at h
    rcases i with _ | _ | i <;> rcases j with _ | _ | j
    · rfl
    · rw [if_pos rfl, if_neg (by omega), if_pos rfl] at h
      exact absurd h (by decide)
    · rw [if_pos rfl, if_neg (by omega), if_neg (by omega)] at h
      exact absurd h (left_ne_seat _)
    · rw [if_neg (by omega), if_pos rfl, if_pos rfl] at h
      exact absurd h.symm (by decide)
    · rfl
    · rw [if_neg (by omega), if_pos rfl, if_neg (by omega), if_neg (by omega)] at h
      exact absurd h (right_ne_seat _)
    · rw [if_neg (by omega), if_neg (by omega), if_pos rfl] at h
      exact absurd h.symm (left_ne_seat _)
    · rw [if_neg (by omega), if_neg (by omega), if_neg (by omega), if_pos rfl] at h
      exact absurd h.symm (right_ne_seat _)
    · rw [if_neg (by omega), if_neg (by omega), if_neg (by omega), if_neg (by omega)] at h
      have := seat_label_inj h
      omega
  · rw [if_neg h2, if_neg h2] at h
    have := seat_label_inj h
    omega

/-! ### The seat loop of one bench -/

theorem seatSeats_spec (room : Room) (spb benchIdx : Nat) :
    ∀ (fuel seatIdx : Nat) (bs : List String) (gs : Groups) (rem : Nat) (st : RunState)
      (gs2 : Groups) (rem2 : Nat) (st2 : RunState),
      seatSeats room spb benchIdx fuel seatIdx bs gs rem st = (gs2, rem2, st2) →
      groupsWF gs → groupTotal gs = rem →
      ∃ neu newC,
        st2.assignments = st.assignments ++ neu ∧
        st2.conflicts = st.conflicts ++ newC ∧
        groupsWF gs2 ∧ groupTotal gs2 = rem2 ∧
        rem2 + min rem fuel = rem ∧
        neu.length = min rem fuel ∧
        (∀ c ∈ newC, c.type = "constraint") ∧
        (∀ a ∈ neu, a.room_id = room.room_id ∧ a.room_name = room.room_name ∧
          a.bench_number = benchIdx + 1) ∧
        (∀ a ∈ neu, ∃ i, seatIdx ≤ i ∧ i < seatIdx + fuel ∧
          a.position = positionLabel spb i) ∧
        (neu.map (fun a => a.position)).Nodup ∧
        (newC = [] → (neu.map (fun a => a.student.subject)).Nodup ∧
          ∀ a ∈ neu, a.student.subject ∉ bs) ∧
        (∀ x, x ∈ groupStudents gs → x ∈ groupStudents gs2 ∨ ∃ a ∈ neu, a.student = x) := by
  intro fuel
  induction fuel with
  | zero =>
    intro seatIdx bs gs rem st gs2 rem2 st2 heq hwf htot
    simp only [seatSeats, Prod.mk.injEq] at heq
    obtain ⟨rfl, rfl, rfl⟩ := heq
    exact ⟨[], [], by simp, by simp, hwf, htot, by simp, by simp, by simp, by simp,
      by simp, by simp, by simp, fun x hx => Or.inl hx⟩
  | succ fuel ih =>
    intro seatIdx bs gs rem st gs2 rem2 st2 heq hwf htot
    by_cases hrem : rem = 0
    · subst hrem
      simp only [seatSeats, if_pos rfl, Prod.mk.injEq] at heq
      obtain ⟨rfl, rfl, rfl⟩ := heq
      exact ⟨[], [], by simp, by simp, hwf, htot, by simp, by simp, by simp, by simp,
        by simp, by simp, by simp, fun x hx => Or.inl hx⟩
    · have hpos : 0 < groupTotal gs := by omega
      have hsne := getSortedSubjects_ne_nil hwf hpos
      cases hs : getSortedSubjects gs with
      | nil => exact absurd hs hsne
      | cons top restAvail =>
        simp only [seatSeats, if_neg hrem] at heq
        rw [hs] at heq
        simp only [] at heq
        rcases hf : (top :: restAvail).find? (fun sub => !(bs.contains sub)) with _ | s
        · -- forced collision: every remaining subject already on the bench
          rw [hf] at heq
          simp only [Option.getD_none] at heq
          have hmem2 : top ∈ getSortedSubjects gs := by rw [hs]; simp
          have hlen := lookupLen_pos_of_mem_sorted hmem2
          obtain ⟨stu, gsp, hpop, hsubj, hwfp, htotp, hmemp⟩ := popGroup_spec hwf hlen
          rw [hpop] at heq
          simp only [] at heq
          obtain ⟨neu2, newC2, ha, hc, hwf2, htot2, hremeq, hlen2, htype, hroom, hposidx,
            hposnodup, hsubjclause, hmem2b⟩ :=
            ih (seatIdx + 1) bs gsp (rem - 1) _ gs2 rem2 st2 heq hwfp (by omega)
          refine ⟨⟨room.room_id, room.room_name, benchIdx + 1,
              positionLabel spb seatIdx, stu⟩ :: neu2,
            ⟨"constraint", constraintMsg stu.subject (benchIdx + 1) room.room_name,
              some room.room_name, some (benchIdx + 1)⟩ :: newC2,
            ?_, ?_, hwf2, htot2, ?_, ?_, ?_, ?_, ?_, ?_, ?_, ?_⟩
          · rw [ha]
            simp
          · rw [hc]
            simp
          · omega
          · simp only [List.length_cons]
            omega
          · intro c hc2
            rcases List.mem_cons.mp hc2 with hc2 | hc2
            · rw [hc2]
            · exact htype c hc2
          · intro a ha2
            rcases List.mem_cons.mp ha2 with ha2 | ha2
            · rw [ha2]
              exact ⟨rfl, rfl, rfl⟩
            · exact hroom a ha2
          · intro a ha2
            rcases List.mem_cons.mp ha2 with ha2 | ha2
            · exact ⟨seatIdx, le_rfl, by omega, by rw [ha2]⟩
            · obtain ⟨i, hi1, hi2, hi3⟩ := hposidx a ha2
              exact ⟨i, by omega, by omega, hi3⟩
          · simp only [List.map_cons]
            refine List.Nodup.cons ?_ hposnodup
            intro hmem3
            rcases List.mem_map.mp hmem3 with ⟨b, hb, hb2⟩
            obtain ⟨i, hi1, hi2, hi3⟩ := hposidx b hb
            rw [hi3] at hb2
            have := positionLabel_inj hb2
            omega
          · intro hz
            exact absurd hz (by simp)
          · intro x hx
            rcases hmemp x hx with h2 | h2
            · rcases hmem2b x h2 with h3 | h3
              · exact Or.inl h3
              · obtain ⟨a, ha3, ha4⟩ := h3
                exact Or.inr ⟨a, by simp [ha3], ha4⟩
            · subst h2
              exact Or.inr ⟨_, List.mem_cons_self _ _, rfl⟩
        · -- a fresh subject for this bench was found
          rw [hf] at heq
          simp only [Option.getD_some] at heq
          have hmem2 : s ∈ getSortedSubjects gs := by
            rw [hs]
            exact List.mem_of_find?_eq_some hf
          have hsnotbs : s ∉ bs := by
            have := List.find?_some hf
            simp only [Bool.not_eq_eq_eq_not, Bool.not_true] at this
            intro hmem4
            rw [List.contains_eq_any_beq] at this
            have : (bs.any (fun x => s == x)) = true :=
              List.any_eq_true.mpr ⟨s, hmem4, by simp⟩
            simp_all
          have hlen := lookupLen_pos_of_mem_sorted hmem2
          obtain ⟨stu, gsp, hpop, hsubj, hwfp, htotp, hmemp⟩ := popGroup_spec hwf hlen
          rw [hpop] at heq
          simp only [] at heq
          obtain ⟨neu2, newC2, ha, hc, hwf2, htot2, hremeq, hlen2, htype, hroom, hposidx,
            hposnodup, hsubjclause, hmem2b⟩ :=
            ih (seatIdx + 1) (bs ++ [stu.subject]) gsp (rem - 1) _ gs2 rem2 st2 heq hwfp
              (by omega)
          refine ⟨⟨room.room_id, room.room_name, benchIdx + 1,
              positionLabel spb seatIdx, stu⟩ :: neu2, newC2,
            ?_, ?_, hwf2, htot2, ?_, ?_, htype, ?_, ?_, ?_, ?_, ?_⟩
          · rw [ha]
            simp
          · rw [hc]
          · omega
          · simp only [List.length_cons]
            omega
          · intro a ha2
            rcases List.mem_cons.mp ha2 with ha2 | ha2
            · rw [ha2]
              exact ⟨rfl, rfl, rfl⟩
            · exact hroom a ha2
          · intro a ha2
            rcases List.mem_cons.mp ha2 with ha2 | ha2
            · exact ⟨seatIdx, le_rfl, by omega, by rw [ha2]⟩
            · obtain ⟨i, hi1, hi2, hi3⟩ := hposidx a ha2
              exact ⟨i, by omega, by omega, hi3⟩
          · simp only [List.map_cons]
            refine List.Nodup.cons ?_ hposnodup
            intro hmem3
            rcases List.mem_map.mp hmem3 with ⟨b, hb, hb2⟩
            obtain ⟨i, hi1, hi2, hi3⟩ := hposidx b hb
            rw [hi3] at hb2
            have := positionLabel_inj hb2
            omega
          · intro hz
            obtain ⟨hnd, hnotbs⟩ := hsubjclause hz
            constructor
            · simp only [List.map_cons]
              refine List.Nodup.cons ?_ hnd
              intro hmem3
              rcases List.mem_map.mp hmem3 with ⟨b, hb, hb2⟩
              have := hnotbs b hb
              rw [hb2] at this
              exact this (by simp)
            · intro a ha2
              rcases List.mem_cons.mp ha2 with ha2 | ha2
              · rw [ha2]
                simpa [hsubj] using hsnotbs
              · intro hmem4
                exact (hnotbs a ha2) (by simp [hmem4])
          · intro x hx
            rcases hmemp x hx with h2 | h2
            · rcases hmem2b x h2 with h3 | h3
              · exact Or.inl h3
              · obtain ⟨a, ha3, ha4⟩ := h3
                exact Or.inr ⟨a, by simp [ha3], ha4⟩
            · subst h2
              exact Or.inr ⟨_, List.mem_cons_self _ _, rfl⟩

/-! ### The bench loop of one room -/

theorem seatBenches_spec (room : Room) (spb : Nat) :
    ∀ (fuel benchIdx : Nat) (gs : Groups) (rem : Nat) (st : RunState)
      (gs2 : Groups) (rem2 : Nat) (st2 : RunState),
      seatBenches room spb fuel benchIdx gs rem st = (gs2, rem2, st2) →
      groupsWF gs → groupTotal gs = rem →
      ∃ neu newC,
        st2.assignments = st.assignments ++ neu ∧
        st2.conflicts = st.conflicts ++ newC ∧
        groupsWF gs2 ∧ groupTotal gs2 = rem2 ∧
        rem2 + min rem (fuel * spb) = rem ∧
        neu.length = min rem (fuel * spb) ∧
        (∀ c ∈ newC, c.type = "constraint") ∧
        (∀ a ∈ neu, a.room_id = room.room_id ∧ a.room_name = room.room_name ∧
          benchIdx + 1 ≤ a.bench_number ∧ a.bench_number ≤ benchIdx + fuel) ∧
        neu.Pairwise benchPosDistinct ∧
        (newC = [] → neu.Pairwise benchSubjectDistinct) ∧
        (∀ x, x ∈ groupStudents gs → x ∈ groupStudents gs2 ∨ ∃ a ∈ neu, a.student = x) := by
  intro fuel
  induction fuel with
  | zero =>
    intro benchIdx gs rem st gs2 rem2 st2 heq hwf htot
    simp only [seatBenches, Prod.mk.injEq] at heq
    obtain ⟨rfl, rfl, rfl⟩ := heq
    exact ⟨[], [], by simp, by simp, hwf, htot, by simp, by simp, by simp, by simp,
      by simp, by simp, fun x hx => Or.inl hx⟩
  | succ fuel ih =>
    intro benchIdx gs rem st gs2 rem2 st2 heq hwf htot
    by_cases hrem : rem = 0
    · subst hrem
      simp only [seatBenches, if_pos rfl, Prod.mk.injEq] at heq
      obtain ⟨rfl, rfl, rfl⟩ := heq
      exact ⟨[], [], by simp, by simp, hwf, htot, by simp, by simp, by simp, by simp,
        by simp, by simp, fun x hx => Or.inl hx⟩
    · have hpos : 0 < groupTotal gs := by omega
      have hsne := getSortedSubjects_ne_nil hwf hpos
      cases hs : getSortedSubjects gs with
      | nil => exact absurd hs hsne
      | cons top restAvail =>
        simp only [seatBenches, if_neg hrem] at heq
        rw [hs] at heq
        simp only [] at heq
        rcases hseq : seatSeats room spb benchIdx spb 0 [] gs rem st with ⟨gsB, remB, stB⟩
        rw [hseq] at heq
        simp only [] at heq
        obtain ⟨neuB, newCB, haB, hcB, hwfB, htotB, hremB, hlenB, htypeB, hroomB,
          hposidxB, hposnodupB, hsubjB, hmemB⟩ :=
          seatSeats_spec room spb benchIdx spb 0 [] gs rem st gsB remB stB hseq hwf htot
        obtain ⟨neuR, newCR, haR, hcR, hwfR, htotR, hremR, hlenR, htypeR, hroomR,
          hpposR, hpsubR, hmemR⟩ :=
          ih (benchIdx + 1) gsB remB stB gs2 rem2 st2 heq hwfB htotB
        have hmul : (fuel + 1) * spb = fuel * spb + spb := by ring
        refine ⟨neuB ++ neuR, newCB ++ newCR, ?_, ?_, hwfR, htotR, ?_, ?_, ?_, ?_,
          ?_, ?_, ?_⟩
        · rw [haR, haB, List.append_assoc]
        · rw [hcR, hcB, List.append_assoc]
        · omega
        · rw [List.length_append]
          omega
        · intro c hc2
          rcases List.mem_append.mp hc2 with hc2 | hc2
          · exact htypeB c hc2
          · exact htypeR c hc2
        · intro a ha2
          rcases List.mem_append.mp ha2 with ha2 | ha2
          · obtain ⟨h1, h2, h3⟩ := hroomB a ha2
            exact ⟨h1, h2, by omega, by omega⟩
          · obtain ⟨h1, h2, h3, h4⟩ := hroomR a ha2
            exact ⟨h1, h2, by omega, by omega⟩
        · rw [List.pairwise_append]
          refine ⟨?_, hpposR, ?_⟩
          · have h2 : List.Pairwise (· ≠ ·) (neuB.map fun a => a.position) := hposnodupB
            have hpw : neuB.Pairwise (fun a b => a.position ≠ b.position) :=
              List.pairwise_map.mp h2
            exact hpw.imp fun {a b} h => show benchPosDistinct a b from Or.inr h
          · intro a ha2 b hb2
            have h1 := (hroomB a ha2).2.2
            have h2 := (hroomR b hb2).2.2
            exact Or.inl (by omega)
        · intro hz
          rw [List.append_eq_nil] at hz
          obtain ⟨hz1, hz2⟩ := hz
          rw [List.pairwise_append]
          refine ⟨?_, hpsubR hz2, ?_⟩
          · obtain ⟨hnd, _⟩ := hsubjB hz1
            have h2 : List.Pairwise (· ≠ ·) (neuB.map fun a => a.student.subject) := hnd
            have hpw : neuB.Pairwise (fun a b => a.student.subject ≠ b.student.subject) :=
              List.pairwise_map.mp h2
            exact hpw.imp fun {a b} h => show benchSubjectDistinct a b from fun _ => h
          · intro a ha2 b hb2
            have h1 := (hroomB a ha2).2.2
            have h2 := (hroomR b hb2).2.2
            intro hbench
            omega
        · intro x hx
          rcases hmemB x hx with h2 | h2
          · rcases hmemR x h2 with h3 | h3
            · exact Or.inl h3
            · obtain ⟨a, ha3, ha4⟩ := h3
              exact Or.inr ⟨a, List.mem_append.mpr (Or.inr ha3), ha4⟩
          · obtain ⟨a, ha3, ha4⟩ := h2
            exact Or.inr ⟨a, List.mem_append.mpr (Or.inl ha3), ha4⟩

/-! ### One room seats all of its allocated students -/

theorem groupStudents_eq_nil {gs : Groups} (hwf : groupsWF gs)
    (h : groupTotal gs = 0) : groupStudents gs = [] := by
  cases gs with
  | nil => rfl
  | cons e rest =>
    exfalso
    rcases e with ⟨k, v⟩
    have hne := (hwf (k, v) (by simp)).1
    have hvp : 0 < v.length := List.length_pos.mpr hne
    rw [groupTotal_cons] at h
    omega

theorem assignRoomSeats_spec (st : RunState) (ra : RoomAlloc)
    (hcap : ra.students.length ≤ ra.capacity)
    (hcapEq : ra.capacity = ra.room.num_benches * ra.room.seats_per_bench) :
    ∃ neu newC,
      (assignRoomSeats st ra).assignments = st.assignments ++ neu ∧
      (assignRoomSeats st ra).conflicts = st.conflicts ++ newC ∧
      neu.length = ra.students.length ∧
      (∀ c ∈ newC, c.type = "constraint") ∧
      (∀ a ∈ neu, a.room_id = ra.room.room_id ∧ a.room_name = ra.room.room_name) ∧
      neu.Pairwise benchPosDistinct ∧
      (newC = [] → neu.Pairwise benchSubjectDistinct) ∧
      (∀ x ∈ ra.students, ∃ a ∈ neu, a.student = x) := by
  rcases hseq : seatRoomResult ra st with ⟨gs2, rem2, st2⟩
  obtain ⟨neu, newC, ha, hc, hwf2, htot2, hrem, hlen, htype, hroom, hppos, hpsub, hmem⟩ :=
    seatBenches_spec ra.room (effSeats ra.room) ra.room.num_benches 0
      (groupBySubject ra.students) ra.students.length st gs2 rem2 st2 hseq
      (groupBySubject_wf _) (groupBySubject_total _)
  have hseats : ra.capacity ≤ ra.room.num_benches * effSeats ra.room := by
    rw [hcapEq]
    unfold effSeats
    by_cases h0 : ra.room.seats_per_bench = 0
    · rw [if_pos h0, h0]
      simp
    · rw [if_neg h0]
  have hle : ra.students.length ≤ ra.room.num_benches * effSeats ra.room :=
    le_trans hcap hseats
  have hrem0 : rem2 = 0 := by omega
  have hres : assignRoomSeats st ra = st2 := by
    unfold assignRoomSeats
    rw [hseq]
    simp only []
    rw [if_neg (by omega)]
  rw [hres]
  refine ⟨neu, newC, ha, hc, by omega, htype, ?_, hppos, hpsub, ?_⟩
  · intro a ha2
    exact ⟨(hroom a ha2).1, (hroom a ha2).2.1⟩
  · intro x hx
    rcases hmem x (mem_groupBySubject.mpr hx) with h2 | h2
    · rw [groupStudents_eq_nil hwf2 (by omega)] at h2
      exact absurd h2 (List.not_mem_nil x)
    · exact h2

/-! ### The fold over all rooms -/

theorem allocTotal_cons (ra : RoomAlloc) (rest : List RoomAlloc) :
    allocTotal (ra :: rest) = ra.students.length + allocTotal rest := by
  simp [allocTotal]

theorem seatAll_spec :
    ∀ (ras : List RoomAlloc) (st : RunState),
      (∀ ra ∈ ras, ra.students.length ≤ ra.capacity ∧
        ra.capacity = ra.room.num_benches * ra.room.seats_per_bench) →
      ∃ neu newC,
        (ras.foldl assignRoomSeats st).assignments = st.assignments ++ neu ∧
        (ras.foldl assignRoomSeats st).conflicts = st.conflicts ++ newC ∧
        neu.length = allocTotal ras ∧
        (∀ c ∈ newC, c.type = "constraint") ∧
        (∀ a ∈ neu, ∃ ra ∈ ras, a.room_id = ra.room.room_id) ∧
        ((ras.map (fun ra => ra.room.room_id)).Nodup →
          neu.Pairwise seatTripleDistinct ∧
          (newC = [] → neu.Pairwise benchSubjectSafe)) ∧
        (∀ ra ∈ ras, ∀ x ∈ ra.students, ∃ a ∈ neu,
          a.student = x ∧ a.room_id = ra.room.room_id ∧ a.room_name = ra.room.room_name) := by
  intro ras
  induction ras with
  | nil =>
    intro st _
    exact ⟨[], [], by simp, by simp, by simp [allocTotal], by simp, by simp,
      fun _ => ⟨by simp, fun _ => by simp⟩, by simp⟩
  | cons ra rest ih =>
    intro st h
    obtain ⟨nb, cb, hab, hcb, hlb, htb, hroomb, hpposb, hpsubb, hmemb⟩ :=
      assignRoomSeats_spec st ra (h ra (by simp)).1 (h ra (by simp)).2
    obtain ⟨nr, cr, har, hcr, hlr, htr, hroomr, hcrossr, hmemr⟩ :=
      ih (assignRoomSeats st ra) (fun ra2 h2 => h ra2 (by simp [h2]))
    rw [List.foldl_cons]
    refine ⟨nb ++ nr, cb ++ cr, ?_, ?_, ?_, ?_, ?_, ?_, ?_⟩
    · rw [har, hab, List.append_assoc]
    · rw [hcr, hcb, List.append_assoc]
    · rw [List.length_append, allocTotal_cons]
      omega
    · intro c hc2
      rcases List.mem_append.mp hc2 with hc2 | hc2
      · exact htb c hc2
      · exact htr c hc2
    · intro a ha2
      rcases List.mem_append.mp ha2 with ha2 | ha2
      · exact ⟨ra, by simp, (hroomb a ha2).1⟩
      · obtain ⟨ra2, h2, h3⟩ := hroomr a ha2
        exact ⟨ra2, by simp [h2], h3⟩
    · intro hnd
      rw [List.map_cons] at hnd
      have hnd2 := List.nodup_cons.mp hnd
      obtain ⟨hcross1, hcross2⟩ := hcrossr hnd2.2
      have hdiff : ∀ a ∈ nb, ∀ b ∈ nr, a.room_id ≠ b.room_id := by
        intro a ha2 b hb2
        obtain ⟨ra2, h2, h3⟩ := hroomr b hb2
        rw [(hroomb a ha2).1, h3]
        intro hzz
        exact hnd2.1 (by
          rw [hzz]
          exact List.mem_map_of_mem (fun ra => ra.room.room_id) h2)
      constructor
      · rw [List.pairwise_append]
        refine ⟨?_, hcross1, ?_⟩
        · refine hpposb.imp fun {a b} h2 => show seatTripleDistinct a b from ?_
          intro ⟨_, h4, h5⟩
          rcases h2 with h2 | h2
          · exact h2 h4
          · exact h2 h5
        · intro a ha2 b hb2
          intro ⟨h4, _, _⟩
          exact hdiff a ha2 b hb2 h4
      · intro hz
        rw [List.append_eq_nil] at hz
        rw [List.pairwise_append]
        refine ⟨?_, hcross2 hz.2, ?_⟩
        · refine (hpsubb hz.1).imp fun {a b} h2 => show benchSubjectSafe a b from ?_
          intro _ h4
          exact h2 h4
        · intro a ha2 b hb2
          intro h4
          exact absurd h4 (hdiff a ha2 b hb2)
    · intro ra2 h2 x hx
      rcases List.mem_cons.mp h2 with h2 | h2
      · subst h2
        obtain ⟨a, ha2, ha3⟩ := hmemb x hx
        exact ⟨a, List.mem_append.mpr (Or.inl ha2), ha3,
          (hroomb a ha2).1, (hroomb a ha2).2⟩
      · obtain ⟨a, ha2, ha3, ha4, ha5⟩ := hmemr ra2 h2 x hx
        exact ⟨a, List.mem_append.mpr (Or.inr ha2), ha3, ha4, ha5⟩

/-! ### Initial allocations -/

theorem initAllocs_pairs (rooms : List Room) :
    (initAllocs rooms).map (fun ra => (ra.room, ra.capacity)) =
      rooms.map (fun r => (r, r.num_benches * r.seats_per_bench)) := by
  simp [initAllocs, List.map_map]

theorem initAllocs_total (rooms : List Room) : allocTotal (initAllocs rooms) = 0 := by
  induction rooms with
  | nil => rfl
  | cons r rest ih => simpa [initAllocs, allocTotal] using ih

theorem initAllocs_le (rooms : List Room) :
    ∀ ra ∈ initAllocs rooms, ra.students.length ≤ ra.capacity := by
  intro ra h
  rcases List.mem_map.mp h with ⟨r, _, rfl⟩
  simp

theorem initAllocs_get? (rooms : List Room) (j : Nat) :
    (initAllocs rooms).get? j =
      (rooms.get? j).map (fun r => ⟨r, [], r.num_benches * r.seats_per_bench⟩) := by
  simp [initAllocs, List.get?_map]

theorem allocCapTotal_eq_totalCapacity {ras : List RoomAlloc} {rooms : List Room}
    (h : ras.map (fun ra => (ra.room, ra.capacity)) =
      rooms.map (fun r => (r, r.num_benches * r.seats_per_bench))) :
    allocCapTotal ras = totalCapacity rooms := by
  have h2 : ras.map (fun ra => ra.capacity) =
      rooms.map (fun r => r.num_benches * r.seats_per_bench) := by
    have h4 := congrArg (List.map Prod.snd) h
    simpa [List.map_map, Function.comp] using h4
  have h3 : totalCapacity rooms =
      (rooms.map (fun r => r.num_benches * r.seats_per_bench)).sum := by
    rw [List.sum_eq_foldl, List.foldl_map]
    rfl
  rw [h3, ← h2]
  rfl

theorem pairs_capEq {ras : List RoomAlloc} {rooms : List Room}
    (h : ras.map (fun ra => (ra.room, ra.capacity)) =
      rooms.map (fun r => (r, r.num_benches * r.seats_per_bench))) :
    ∀ ra ∈ ras, ra.capacity = ra.room.num_benches * ra.room.seats_per_bench := by
  intro ra hmem
  have h2 : (ra.room, ra.capacity) ∈
      rooms.map (fun r => (r, r.num_benches * r.seats_per_bench)) := by
    rw [← h]
    exact List.mem_map_of_mem _ hmem
  rcases List.mem_map.mp h2 with ⟨r, _, heq⟩
  obtain ⟨h3, h4⟩ := Prod.mk.injEq .. |>.mp heq
  rw [← h4, h3]

theorem pairs_ids {ras : List RoomAlloc} {rooms : List Room}
    (h : ras.map (fun ra => (ra.room, ra.capacity)) =
      rooms.map (fun r => (r, r.num_benches * r.seats_per_bench))) :
    ras.map (fun ra => ra.room.room_id) = rooms.map Room.room_id := by
  have h2 : ras.map (fun ra => ra.room) = rooms := by
    have h4 := congrArg (List.map Prod.fst) h
    simpa [List.map_map, Function.comp_def, List.map_id] using h4
  calc ras.map (fun ra => ra.room.room_id)
      = (ras.map (fun ra => ra.room)).map Room.room_id := by rw [List.map_map]; rfl
    _ = rooms.map Room.room_id := by rw [h2]

/-! ### `pushAt` -/

theorem pushAt_length (ras : List RoomAlloc) (j : Nat) (stu : Student) :
    (pushAt ras j stu).length = ras.length := by
  induction ras generalizing j with
  | nil => rfl
  | cons ra rest ih =>
    cases j with
    | zero => simp [pushAt]
    | succ j => simp [pushAt, ih]

theorem pushAt_pairs (ras : List RoomAlloc) (j : Nat) (stu : Student) :
    (pushAt ras j stu).map (fun ra => (ra.room, ra.capacity)) =
      ras.map (fun ra => (ra.room, ra.capacity)) := by
  induction ras generalizing j with
  | nil => rfl
  | cons ra rest ih =>
    cases j with
    | zero => simp [pushAt]
    | succ j => simp [pushAt, ih]

theorem pushAt_total {ras : List RoomAlloc} {j : Nat} {ra : RoomAlloc}
    (h : ras.get? j = some ra) (stu : Student) :
    allocTotal (pushAt ras j stu) = allocTotal ras + 1 := by
  induction ras generalizing j with
  | nil => simp at h
  | cons ra2 rest ih =>
    cases j with
    | zero =>
      simp only [pushAt, allocTotal_cons, List.length_append, List.length_singleton]
      omega
    | succ j =>
      simp only [List.get?_cons_succ] at h
      simp only [pushAt, allocTotal_cons, ih h]
      omega

theorem pushAt_get?_self {ras : List RoomAlloc} {j : Nat} {ra : RoomAlloc}
    (h : ras.get? j = some ra) (stu : Student) :
    (pushAt ras j stu).get? j = some { ra with students := ra.students ++ [stu] } := by
  induction ras generalizing j with
  | nil => simp at h
  | cons ra2 rest ih =>
    cases j with
    | zero =>
      simp only [List.get?_cons_zero, Option.some.injEq] at h
      subst h
      simp [pushAt]
    | succ j =>
      simp only [List.get?_cons_succ] at h
      simp only [pushAt, List.get?_cons_succ]
      exact ih h

theorem pushAt_get?_ne (ras : List RoomAlloc) {j i : Nat} (stu : Student)
    (h : i ≠ j) : (pushAt ras j stu).get? i = ras.get? i := by
  induction ras generalizing j i with
  | nil => cases j <;> rfl
  | cons ra2 rest ih =>
    cases j with
    | zero =>
      cases i with
      | zero => exact absurd rfl h
      | succ i => simp [pushAt]
    | succ j =>
      cases i with
      | zero => simp [pushAt]
      | succ i =>
        simp only [pushAt, List.get?_cons_succ]
        exact ih (by omega)

theorem pushAt_le {ras : List RoomAlloc} {j : Nat} {raj : RoomAlloc}
    (hget : ras.get? j = some raj) (hlt : raj.students.length < raj.capacity)
    (hall : ∀ ra ∈ ras, ra.students.length ≤ ra.capacity) (stu : Student) :
    ∀ ra ∈ pushAt ras j stu, ra.students.length ≤ ra.capacity := by
  induction ras generalizing j with
  | nil => simp at hget
  | cons ra2 rest ih =>
    cases j with
    | zero =>
      simp only [List.get?_cons_zero, Option.some.injEq] at hget
      subst hget
      intro ra h2
      rcases List.mem_cons.mp h2 with h2 | h2
      · subst h2
        simp only [List.length_append, List.length_singleton]
        omega
      · exact hall ra (by simp [h2])
    | succ j =>
      simp only [List.get?_cons_succ] at hget
      intro rb h2
      rcases List.mem_cons.mp h2 with h2 | h2
      · subst h2
        exact hall _ (by simp)
      · exact ih hget (fun ra3 h3 => hall ra3 (by simp [h3])) rb h2

/-! ### `findNextRoom` -/

theorem findNextRoom_found :
    ∀ (fuel idx : Nat) (ras : List RoomAlloc) (j : Nat),
      findNextRoom ras idx fuel = some j →
      ∃ ra, ras.get? j = some ra ∧ ra.students.length < ra.capacity := by
  intro fuel
  induction fuel with
  | zero => intro idx ras j h; simp [findNextRoom] at h
  | succ fuel ih =>
    intro idx ras j h
    unfold findNextRoom at h
    cases hg : ras.get? idx with
    | none =>
      rw [hg] at h
      simp only [] at h
      exact absurd h (by simp)
    | some ra =>
      rw [hg] at h
      simp only [] at h
      by_cases hfull : ra.students.length ≥ ra.capacity
      · rw [if_pos hfull] at h
        exact ih _ ras j h
      · rw [if_neg hfull] at h
        have := Option.some.inj h
        subst this
        exact ⟨ra, hg, by omega⟩

theorem findNextRoom_isSome :
    ∀ (t : Nat) (fuel idx : Nat) (ras : List RoomAlloc),
      idx < ras.length → t < fuel →
      (∃ ra, ras.get? ((idx + t) % ras.length) = some ra ∧
        ra.students.length < ra.capacity) →
      (findNextRoom ras idx fuel).isSome = true := by
  intro t
  induction t with
  | zero =>
    intro fuel idx ras hidx hf hex
    obtain ⟨ra, hget, hlt⟩ := hex
    rw [Nat.add_zero, Nat.mod_eq_of_lt hidx] at hget
    cases fuel with
    | zero => omega
    | succ fuel =>
      unfold findNextRoom
      rw [hget]
      simp only []
      rw [if_neg (by omega)]
      rfl
  | succ t ih =>
    intro fuel idx ras hidx hf hex
    cases fuel with
    | zero => omega
    | succ fuel =>
      unfold findNextRoom
      cases hg : ras.get? idx with
      | none =>
        rw [List.get?_eq_none] at hg
        omega
      | some ra =>
        simp only []
        by_cases hfull : ra.students.length ≥ ra.capacity
        · rw [if_pos hfull]
          apply ih fuel ((idx + 1) % ras.length) ras
            (Nat.mod_lt _ (by omega)) (by omega)
          obtain ⟨ra2, hget2, hlt2⟩ := hex
          refine ⟨ra2, ?_, hlt2⟩
          rw [Nat.mod_add_mod]
          rw [show idx + 1 + t = idx + (t + 1) by omega]
          exact hget2
        · rw [if_neg hfull]
          rfl

theorem allocCapTotal_cons (ra : RoomAlloc) (rest : List RoomAlloc) :
    allocCapTotal (ra :: rest) = ra.capacity + allocCapTotal rest := by
  simp [allocCapTotal]

theorem exists_nonfull :
    ∀ (ras : List RoomAlloc), allocTotal ras < allocCapTotal ras →
      ∃ j ra, ras.get? j = some ra ∧ ra.students.length < ra.capacity := by
  intro ras
  induction ras with
  | nil => intro h; simp [allocTotal, allocCapTotal] at h
  | cons ra rest ih =>
    intro h
    by_cases hlt : ra.students.length < ra.capacity
    · exact ⟨0, ra, rfl, hlt⟩
    · rw [allocTotal_cons, allocCapTotal_cons] at h
      obtain ⟨j, ra2, hget, hlt2⟩ := ih (by omega)
      exact ⟨j + 1, ra2, by simpa using hget, hlt2⟩

/-! ### Round-robin distribution -/

theorem distributeRR_spec :
    ∀ (l : List Student) (ras : List RoomAlloc) (idx : Nat) (ras2 : List RoomAlloc),
      distributeRR ras idx l = some ras2 →
      ras2.map (fun ra => (ra.room, ra.capacity)) =
        ras.map (fun ra => (ra.room, ra.capacity)) ∧
      allocTotal ras2 = allocTotal ras + l.length ∧
      ((∀ ra ∈ ras, ra.students.length ≤ ra.capacity) →
        ∀ ra ∈ ras2, ra.students.length ≤ ra.capacity) ∧
      (∀ i ra, ras.get? i = some ra → ∃ ra3, ras2.get? i = some ra3 ∧
        ra3.room = ra.room ∧ ∀ y ∈ ra.students, y ∈ ra3.students) := by
  intro l
  induction l with
  | nil =>
    intro ras idx ras2 h
    have := Option.some.inj h
    subst this
    exact ⟨rfl, by simp, fun h2 => h2, fun i ra h2 => ⟨ra, h2, rfl, fun y hy => hy⟩⟩
  | cons stu rest ih =>
    intro ras idx ras2 h
    unfold distributeRR at h
    cases hf : findNextRoom ras idx ras.length with
    | none => rw [hf] at h; exact absurd h (by simp)
    | some j =>
      rw [hf] at h
      simp only [] at h
      obtain ⟨raj, hgetj, hltj⟩ := findNextRoom_found _ _ _ _ hf
      obtain ⟨hpairs, htotal, hle, hmem⟩ := ih _ _ _ h
      refine ⟨?_, ?_, ?_, ?_⟩
      · rw [hpairs, pushAt_pairs]
      · rw [htotal, pushAt_total hgetj]
        simp only [List.length_cons]
        omega
      · intro hall
        exact hle (pushAt_le hgetj hltj hall stu)
      · intro i ra h2
        by_cases hij : i = j
        · subst hij
          rw [h2, Option.some.injEq] at hgetj
          subst hgetj
          obtain ⟨ra3, h3, h4, h5⟩ := hmem i _ (pushAt_get?_self h2 stu)
          exact ⟨ra3, h3, h4, fun y hy => h5 y (by simp [hy])⟩
        · obtain ⟨ra3, h3, h4, h5⟩ := hmem i ra (by rw [pushAt_get?_ne ras stu hij]; exact h2)
          exact ⟨ra3, h3, h4, h5⟩

theorem distributeRR_isSome :
    ∀ (l : List Student) (ras : List RoomAlloc) (idx : Nat),
      (l ≠ [] → idx < ras.length) →
      allocTotal ras + l.length ≤ allocCapTotal ras →
      (distributeRR ras idx l).isSome = true := by
  intro l
  induction l with
  | nil => intro ras idx _ _; rfl
  | cons stu rest ih =>
    intro ras idx hidx hsum
    have hlt : allocTotal ras < allocCapTotal ras := by
      simp only [List.length_cons] at hsum
      omega
    obtain ⟨j0, ra0, hget0, hne0⟩ := exists_nonfull ras hlt
    have hj0 : j0 < ras.length := by
      by_contra hcon
      rw [List.get?_len_le (by omega)] at hget0
      exact absurd hget0 (by simp)
    have hn : 0 < ras.length := by omega
    have hidx2 : idx < ras.length := hidx (by simp)
    have hfs : (findNextRoom ras idx ras.length).isSome = true := by
      apply findNextRoom_isSome ((j0 + ras.length - idx) % ras.length) ras.length idx ras
        hidx2 (Nat.mod_lt _ hn)
      refine ⟨ra0, ?_, hne0⟩
      have h1 : (idx + (j0 + ras.length - idx) % ras.length) % ras.length = j0 := by
        rw [Nat.add_mod_mod]
        rw [Nat.add_sub_cancel' (by omega : idx ≤ j0 + ras.length)]
        rw [Nat.add_mod_right]
        exact Nat.mod_eq_of_lt hj0
      rw [h1]
      exact hget0
    obtain ⟨j, hj⟩ := Option.isSome_iff_exists.mp hfs
    unfold distributeRR
    rw [hj]
    simp only []
    obtain ⟨raj, hgetj, _⟩ := findNextRoom_found _ _ _ _ hj
    apply ih
    · intro _
      rw [pushAt_length]
      exact Nat.mod_lt _ hn
    · have hcap : allocCapTotal (pushAt ras j stu) = allocCapTotal ras := by
        have := pushAt_pairs ras j stu
        have h2 : (pushAt ras j stu).map (fun ra => ra.capacity) =
            ras.map (fun ra => ra.capacity) := by
          have h3 := congrArg (List.map Prod.snd) this
          simpa [List.map_map] using h3
        unfold allocCapTotal
        rw [h2]
      rw [hcap, pushAt_total hgetj]
      simp only [List.length_cons] at hsum
      omega

/-! ### The preferred-room pass -/

theorem prefAssign_pairs :
    ∀ (ras : List RoomAlloc) (stu : Student) (p : String),
      (prefAssign ras stu p).1.map (fun ra => (ra.room, ra.capacity)) =
        ras.map (fun ra => (ra.room, ra.capacity)) := by
  intro ras stu p
  induction ras with
  | nil => rfl
  | cons ra rest ih =>
    by_cases hm : ra.room.room_name = p ∨ ra.room.room_id = p
    · by_cases hc : ra.students.length < ra.capacity
      · simp [prefAssign, hm, hc]
      · simp [prefAssign, hm, hc]
    · simp [prefAssign, hm, ih]

theorem prefAssign_total :
    ∀ (ras : List RoomAlloc) (stu : Student) (p : String),
      allocTotal (prefAssign ras stu p).1 =
        allocTotal ras + (if (prefAssign ras stu p).2 = true then 1 else 0) := by
  intro ras stu p
  induction ras with
  | nil => rfl
  | cons ra rest ih =>
    by_cases hm : ra.room.room_name = p ∨ ra.room.room_id = p
    · by_cases hc : ra.students.length < ra.capacity
      · have hstep : prefAssign (ra :: rest) stu p =
            ({ ra with students := ra.students ++ [stu] } :: rest, true) := by
          simp [prefAssign, hm, hc]
        rw [hstep]
        show allocTotal ({ ra with students := ra.students ++ [stu] } :: rest) =
          allocTotal (ra :: rest) + 1
        simp only [allocTotal_cons, List.length_append, List.length_singleton]
        omega
      · have hstep : prefAssign (ra :: rest) stu p = (ra :: rest, false) := by
          simp [prefAssign, hm, hc]
        rw [hstep]
        simp
    · have hstep : prefAssign (ra :: rest) stu p =
          (ra :: (prefAssign rest stu p).1, (prefAssign rest stu p).2) := by
        simp [prefAssign, hm]
      rw [hstep]
      simp only [allocTotal_cons, ih]
      generalize (if (prefAssign rest stu p).2 = true then 1 else 0) = w
      omega

theorem prefAssign_le :
    ∀ (ras : List RoomAlloc) (stu : Student) (p : String),
      (∀ ra ∈ ras, ra.students.length ≤ ra.capacity) →
      ∀ ra ∈ (prefAssign ras stu p).1, ra.students.length ≤ ra.capacity := by
  intro ras stu p
  induction ras with
  | nil => intro h ra h2; exact absurd h2 (List.not_mem_nil ra)
  | cons ra rest ih =>
    intro h rb h2
    by_cases hm : ra.room.room_name = p ∨ ra.room.room_id = p
    · by_cases hc : ra.students.length < ra.capacity
      · simp only [prefAssign, if_pos hm, if_pos hc, List.mem_cons] at h2
        rcases h2 with h2 | h2
        · subst h2
          simp only [List.length_append, List.length_singleton]
          omega
        · exact h rb (by simp [h2])
      · simp only [prefAssign, if_pos hm, if_neg hc, List.mem_cons] at h2
        rcases h2 with h2 | h2
        · subst h2
          exact h _ (by simp)
        · exact h rb (by simp [h2])
    · simp only [prefAssign, if_neg hm, List.mem_cons] at h2
      rcases h2 with h2 | h2
      · subst h2
        exact h _ (by simp)
      · exact ih (fun ra3 h3 => h ra3 (by simp [h3])) rb h2

theorem prefAssign_mem :
    ∀ (ras : List RoomAlloc) (stu : Student) (p : String) (i : Nat) (ra : RoomAlloc),
      ras.get? i = some ra →
      ∃ ra2, (prefAssign ras stu p).1.get? i = some ra2 ∧
        ra2.room = ra.room ∧ ∀ y ∈ ra.students, y ∈ ra2.students := by
  intro ras stu p
  induction ras with
  | nil => intro i ra h; simp at h
  | cons rb rest ih =>
    intro i ra h
    by_cases hm : rb.room.room_name = p ∨ rb.room.room_id = p
    · by_cases hc : rb.students.length < rb.capacity
      · have hstep : prefAssign (rb :: rest) stu p =
            ({ rb with students := rb.students ++ [stu] } :: rest, true) := by
          simp [prefAssign, hm, hc]
        cases i with
        | zero =>
          have hra : rb = ra := by
            simp only [List.get?_cons_zero, Option.some.injEq] at h
            exact h
          refine ⟨{ rb with students := rb.students ++ [stu] }, ?_, by rw [hra], ?_⟩
          · rw [hstep]
            rfl
          · intro y hy
            rw [← hra] at hy
            simp [hy]
        | succ i =>
          simp only [List.get?_cons_succ] at h
          refine ⟨ra, ?_, rfl, fun y hy => hy⟩
          rw [hstep]
          simpa using h
      · have hstep : prefAssign (rb :: rest) stu p = (rb :: rest, false) := by
          simp [prefAssign, hm, hc]
        refine ⟨ra, ?_, rfl, fun y hy => hy⟩
        rw [hstep]
        exact h
    · have hstep : prefAssign (rb :: rest) stu p =
          (rb :: (prefAssign rest stu p).1, (prefAssign rest stu p).2) := by
        simp [prefAssign, hm]
      cases i with
      | zero =>
        have hra : rb = ra := by
          simp only [List.get?_cons_zero, Option.some.injEq] at h
          exact h
        refine ⟨rb, ?_, by rw [hra], ?_⟩
        · rw [hstep]
          rfl
        · intro y hy
          rw [← hra] at hy
          exact hy
      | succ i =>
        simp only [List.get?_cons_succ] at h
        obtain ⟨ra2, h2, h3, h4⟩ := ih i ra h
        refine ⟨ra2, ?_, h3, h4⟩
        rw [hstep]
        simpa using h2

theorem prefAssign_places :
    ∀ (ras : List RoomAlloc) (stu : Student) (p : String) (j : Nat) (raj : RoomAlloc),
      matchRoomIdx (ras.map (fun ra => ra.room)) p = some j →
      ras.get? j = some raj → raj.students.length < raj.capacity →
      (prefAssign ras stu p).2 = true ∧
      (prefAssign ras stu p).1.get? j =
        some { raj with students := raj.students ++ [stu] } := by
  intro ras stu p
  induction ras with
  | nil => intro j raj hm; simp [matchRoomIdx] at hm
  | cons ra rest ih =>
    intro j raj hm hget hlt
    by_cases hpred : ra.room.room_name = p ∨ ra.room.room_id = p
    · have hj0 : j = 0 := by
        unfold matchRoomIdx at hm
        rw [List.map_cons, List.findIdx?_cons, if_pos (by simpa using hpred)] at hm
        exact (Option.some.inj hm).symm
      subst hj0
      simp only [List.get?_cons_zero, Option.some.injEq] at hget
      subst hget
      constructor
      · simp [prefAssign, hpred, hlt]
      · simp [prefAssign, hpred, hlt]
    · have hm2 : ∃ j2, matchRoomIdx (rest.map (fun ra => ra.room)) p = some j2 ∧
          j = j2 + 1 := by
        unfold matchRoomIdx at hm ⊢
        rw [List.map_cons, List.findIdx?_cons, if_neg (by simpa using hpred),
          List.findIdx?_succ] at hm
        rcases Option.map_eq_some'.mp hm with ⟨j2, hj2, hj3⟩
        exact ⟨j2, hj2, hj3.symm⟩
      obtain ⟨j2, hm3, rfl⟩ := hm2
      simp only [List.get?_cons_succ] at hget
      obtain ⟨h1, h2⟩ := ih j2 raj hm3 hget hlt
      have hstep : prefAssign (ra :: rest) stu p =
          (ra :: (prefAssign rest stu p).1, (prefAssign rest stu p).2) := by
        simp [prefAssign, hpred]
      constructor
      · rw [hstep]
        exact h1
      · rw [hstep]
        simpa using h2

theorem prefFold_spec :
    ∀ (students : List Student) (ras : List RoomAlloc) (un : List Student),
      ((students.foldl prefStep (ras, un)).1.map (fun ra => (ra.room, ra.capacity)) =
        ras.map (fun ra => (ra.room, ra.capacity))) ∧
      allocTotal (students.foldl prefStep (ras, un)).1 +
        (students.foldl prefStep (ras, un)).2.length =
        allocTotal ras + un.length + students.length ∧
      ((∀ ra ∈ ras, ra.students.length ≤ ra.capacity) →
        ∀ ra ∈ (students.foldl prefStep (ras, un)).1,
          ra.students.length ≤ ra.capacity) ∧
      (∀ i ra, ras.get? i = some ra →
        ∃ ra2, (students.foldl prefStep (ras, un)).1.get? i = some ra2 ∧
          ra2.room = ra.room ∧ ∀ y ∈ ra.students, y ∈ ra2.students) := by
  intro students
  induction students with
  | nil =>
    intro ras un
    exact ⟨rfl, by simp, fun h => h, fun i ra h => ⟨ra, h, rfl, fun y hy => hy⟩⟩
  | cons stu rest ih =>
    intro ras un
    rw [List.foldl_cons]
    cases hp : stu.preferred_room with
    | none =>
      obtain ⟨i1, i2, i3, i4⟩ := ih ras (un ++ [stu])
      rw [show prefStep (ras, un) stu = (ras, un ++ [stu]) by simp [prefStep, hp]]
      refine ⟨i1, ?_, i3, i4⟩
      rw [i2]
      simp only [List.length_append, List.length_singleton, List.length_cons,
        List.length_nil]
      omega
    | some p =>
      have hstep : prefStep (ras, un) stu =
          ((prefAssign ras stu p).1,
            if (prefAssign ras stu p).2 then un else un ++ [stu]) := by
        simp [prefStep, hp]
      rw [hstep]
      obtain ⟨i1, i2, i3, i4⟩ :=
        ih (prefAssign ras stu p).1
          (if (prefAssign ras stu p).2 then un else un ++ [stu])
      refine ⟨?_, ?_, ?_, ?_⟩
      · rw [i1, prefAssign_pairs]
      · rw [i2, prefAssign_total]
        by_cases h2 : (prefAssign ras stu p).2 = true
        · simp only [h2, if_pos rfl, if_true]
          simp only [List.length_cons, List.length_nil]
          omega
        · rw [if_neg h2]
          rw [show (if (prefAssign ras stu p).2 = true then un else un ++ [stu]) =
            un ++ [stu] by rw [if_neg h2]]
          simp only [List.length_append, List.length_singleton, List.length_cons,
            List.length_nil]
          omega
      · intro hall
        exact i3 (prefAssign_le ras stu p hall)
      · intro i ra h
        obtain ⟨ra2, h2, h3, h4⟩ := prefAssign_mem ras stu p i ra h
        obtain ⟨ra3, h5, h6, h7⟩ := i4 i ra2 h2
        exact ⟨ra3, h5, by rw [h6, h3], fun y hy => h7 y (h4 y hy)⟩

/-! ### The whole distribution pipeline -/

theorem pairs_rooms {ras : List RoomAlloc} {rooms : List Room}
    (h : ras.map (fun ra => (ra.room, ra.capacity)) =
      rooms.map (fun r => (r, r.num_benches * r.seats_per_bench))) :
    ras.map (fun ra => ra.room) = rooms := by
  have h4 := congrArg (List.map Prod.fst) h
  simpa [List.map_map, Function.comp_def, List.map_id] using h4

theorem distribution_spec (students : List Student) (rooms : List Room)
    (hcap : students.length ≤ totalCapacity rooms) :
    ∃ ras2, distributeRR (preferredPass (initAllocs rooms) students).1 0
        (preferredPass (initAllocs rooms) students).2 = some ras2 ∧
      ras2.map (fun ra => (ra.room, ra.capacity)) =
        rooms.map (fun r => (r, r.num_benches * r.seats_per_bench)) ∧
      allocTotal ras2 = students.length ∧
      (∀ ra ∈ ras2, ra.students.length ≤ ra.capacity) ∧
      (∀ i ra, (preferredPass (initAllocs rooms) students).1.get? i = some ra →
        ∃ ra3, ras2.get? i = some ra3 ∧ ra3.room = ra.room ∧
          ∀ y ∈ ra.students, y ∈ ra3.students) := by
  obtain ⟨p1, p2, p3, p4⟩ := prefFold_spec students (initAllocs rooms) []
  have hApairs : (preferredPass (initAllocs rooms) students).1.map
      (fun ra => (ra.room, ra.capacity)) =
      rooms.map (fun r => (r, r.num_benches * r.seats_per_bench)) := by
    unfold preferredPass
    rw [p1, initAllocs_pairs]
  have hTotA : allocTotal (preferredPass (initAllocs rooms) students).1 +
      (preferredPass (initAllocs rooms) students).2.length = students.length := by
    have := p2
    rw [initAllocs_total] at this
    simpa [preferredPass] using this
  have hLeA : ∀ ra ∈ (preferredPass (initAllocs rooms) students).1,
      ra.students.length ≤ ra.capacity := p3 (initAllocs_le rooms)
  have hCapTot : allocCapTotal (preferredPass (initAllocs rooms) students).1 =
      totalCapacity rooms := allocCapTotal_eq_totalCapacity hApairs
  have hLenA : (preferredPass (initAllocs rooms) students).1.length = rooms.length := by
    have := congrArg List.length hApairs
    simpa using this
  have hSome : (distributeRR (preferredPass (initAllocs rooms) students).1 0
      (preferredPass (initAllocs rooms) students).2).isSome = true := by
    apply distributeRR_isSome
    · intro hne
      have h1 : 0 < (preferredPass (initAllocs rooms) students).2.length :=
        List.length_pos.mpr hne
      rw [hLenA]
      cases hrc : rooms with
      | nil =>
        exfalso
        rw [hrc] at hcap
        have : totalCapacity [] = 0 := rfl
        omega
      | cons r rest => simp
    · rw [hCapTot]
      omega
  obtain ⟨ras2, hd⟩ := Option.isSome_iff_exists.mp hSome
  obtain ⟨d1, d2, d3, d4⟩ := distributeRR_spec _ _ _ _ hd
  refine ⟨ras2, hd, d1.trans hApairs, by omega, d3 hLeA, d4⟩

/-! ### The shuffle preserves the number of students -/

theorem length_swapList (l : List Student) (i j : Nat) :
    (swapList l i j).length = l.length := by
  unfold swapList
  cases l.get? i <;> cases l.get? j <;> simp

theorem length_shuffleGo :
    ∀ (m : Nat) (arr : List Student) (r : Nat), (shuffleGo arr r m).length = arr.length := by
  intro m
  induction m with
  | zero => intro arr r; rfl
  | succ m ih =>
    intro arr r
    simp only [shuffleGo]
    rw [ih, length_swapList]

theorem length_processedStudents (students : List Student) (opts : Options) :
    (processedStudents students opts).length = students.length := by
  unfold processedStudents
  cases opts.seed with
  | none => rfl
  | some sd =>
    show (seededShuffle students sd).length = students.length
    unfold seededShuffle
    rw [length_shuffleGo]

/-! ### A completed greedy run -/

theorem greedy_run_spec (students : List Student) (rooms : List Room)
    (hcap : students.length ≤ totalCapacity rooms)
    (hsubj : maxSubjectCount (groupBySubject students) ≤ (students.length + 1) / 2) :
    ∃ st : RunState, greedyPairScheduler students rooms = some (finalizeRun st rooms) ∧
      st.assignments.length = students.length ∧
      (∀ c ∈ st.conflicts, c.type = "constraint") ∧
      ((rooms.map Room.room_id).Nodup →
        st.assignments.Pairwise seatTripleDistinct ∧
        (st.conflicts = [] → st.assignments.Pairwise benchSubjectSafe)) := by
  obtain ⟨ras2, hd, hpairs, htot, hle, _⟩ := distribution_spec students rooms hcap
  have hgreedy : greedyPairScheduler students rooms =
      some (finalizeRun (ras2.foldl assignRoomSeats ⟨[], []⟩) rooms) := by
    unfold greedyPairScheduler
    rw [if_neg (by omega), if_neg (by omega), hd]
  obtain ⟨neu, newC, ha, hc, hlen, htype, hrooms, hnodup, hmem⟩ :=
    seatAll_spec ras2 ⟨[], []⟩ (fun ra h => ⟨hle ra h, pairs_capEq hpairs ra h⟩)
  refine ⟨ras2.foldl assignRoomSeats ⟨[], []⟩, hgreedy, ?_, ?_, ?_⟩
  · rw [ha]
    simp only [List.nil_append]
    omega
  · intro c hc2
    rw [hc] at hc2
    simp only [List.nil_append] at hc2
    exact htype c hc2
  · intro hndrooms
    have hnd2 : (ras2.map (fun ra => ra.room.room_id)).Nodup := by
      rw [pairs_ids hpairs]
      exact hndrooms
    obtain ⟨hp1, hp2⟩ := hnodup hnd2
    constructor
    · rw [ha]
      simpa using hp1
    · intro hcz
      rw [hc] at hcz
      simp only [List.nil_append] at hcz
      rw [ha]
      simpa using hp2 hcz

/-! ### Claims C1 and C2: properties of successful runs -/

theorem schedule_success_run (students : List Student) (rooms : List Room)
    (opts : Options) (res : ScheduleResult)
    (hres : schedule students rooms opts = some res)
    (hsucc : res.success = true) :
    ∃ st : RunState,
      res = finalizeRun st rooms ∧ st.conflicts = [] ∧
      st.assignments.length = students.length ∧
      ((rooms.map Room.room_id).Nodup →
        st.assignments.Pairwise seatTripleDistinct ∧
        st.assignments.Pairwise benchSubjectSafe) := by
  unfold schedule at hres
  by_cases hv : 0 < (validateConstraints students rooms).length
  · rw [if_pos hv] at hres
    have := Option.some.inj hres
    subst this
    exact absurd hsucc (by simp)
  · rw [if_neg hv] at hres
    by_cases h1 : (processedStudents students opts).length ≤ totalCapacity rooms
    · by_cases h2 : maxSubjectCount (groupBySubject (processedStudents students opts)) ≤
          ((processedStudents students opts).length + 1) / 2
      · obtain ⟨st, hg, hlen, htype, hnd⟩ :=
          greedy_run_spec (processedStudents students opts) rooms h1 h2
        rw [hg] at hres
        have := Option.some.inj hres
        subst this
        have hconfl : st.conflicts = [] := by
          have hs2 : decide (st.conflicts.length = 0) = true := hsucc
          have := of_decide_eq_true hs2
          exact List.eq_nil_of_length_eq_zero this
        refine ⟨st, rfl, hconfl, ?_, ?_⟩
        · rw [hlen, length_processedStudents]
        · intro hids
          obtain ⟨hh1, hh2⟩ := hnd hids
          exact ⟨hh1, hh2 hconfl⟩
      · rw [greedy_infeasible_subject _ _ h1 (by omega)] at hres
        have := Option.some.inj hres
        subst this
        exact absurd hsucc (by simp)
    · have hg : greedyPairScheduler (processedStudents students opts) rooms =
          some ⟨false, [],
            ⟨false, [], [capacityMsg (processedStudents students opts).length
              (totalCapacity rooms)]⟩, []⟩ := by
        unfold greedyPairScheduler
        rw [if_pos (by omega)]
      rw [hg] at hres
      have := Option.some.inj hres
      subst this
      exact absurd hsucc (by simp)

/-- C1 amended: for every input whose rooms carry pairwise-distinct
`room_id` values, a successful `schedule` result places no two same-subject
students on the same bench of the same room.  Rooms that share a `room_id`
defeat the claim as stated. -/
theorem success_bench_subject_distinct (students : List Student) (rooms : List Room)
    (opts : Options) (res : ScheduleResult)
    (hids : (rooms.map Room.room_id).Nodup)
    (hres : schedule students rooms opts = some res)
    (hsucc : res.success = true) :
    res.assignments.Pairwise benchSubjectSafe := by
  obtain ⟨st, rfl, _, _, hpair⟩ := schedule_success_run students rooms opts res hres hsucc
  exact (hpair hids).2

/-- C1 counterexample: two rooms that share `room_id` "R1" produce a
successful run whose result pairs two subject-"A" students on what the
result records as bench 1 of room "R1". -/
theorem bench_subject_shared_dup_room_id :
    schedule cexStudents cexRooms defaultOptions = some cexRes ∧
    cexRes.success = true ∧
    ¬ cexRes.assignments.Pairwise benchSubjectSafe := by
  refine ⟨rfl, by decide, ?_⟩
  unfold benchSubjectSafe
  decide

/-- C1 witness: the amended theorem at a successful two-student run. -/
theorem success_bench_subject_distinct_witness :
    (okRooms.map Room.room_id).Nodup ∧
    schedule okStudents okRooms defaultOptions = some okRes ∧
    okRes.success = true ∧
    okRes.assignments.Pairwise benchSubjectSafe :=
  ⟨by decide, rfl, by decide,
    success_bench_subject_distinct okStudents okRooms defaultOptions okRes
      (by decide) rfl (by decide)⟩

/-- C2 amended: a successful `schedule` result always has exactly one
assignment per student (length conservation holds unconditionally on
success), and when the rooms carry pairwise-distinct `room_id` values no
(room_id, bench_number, position) triple is repeated.  Rooms that share a
`room_id` defeat the triple-uniqueness part as stated. -/
theorem success_conservation (students : List Student) (rooms : List Room)
    (opts : Options) (res : ScheduleResult)
    (hres : schedule students rooms opts = some res)
    (hsucc : res.success = true) :
    res.assignments.length = students.length ∧
    ((rooms.map Room.room_id).Nodup →
      res.assignments.Pairwise seatTripleDistinct) := by
  obtain ⟨st, rfl, _, hlen, hpair⟩ := schedule_success_run students rooms opts res hres hsucc
  exact ⟨hlen, fun hids => (hpair hids).1⟩

/-- C2 counterexample: two rooms that share `room_id` "R1" produce a
successful run that conserves length (four assignments for four
students) yet repeats the (room_id, bench_number, position) triple
("R1", 1, "left"), refuting the claim's unconditional triple
uniqueness. -/
theorem seat_triple_repeated_dup_room_id :
    schedule cexStudents cexRooms defaultOptions = some cexRes ∧
    cexRes.success = true ∧
    cexRes.assignments.length = cexStudents.length ∧
    ¬ cexRes.assignments.Pairwise seatTripleDistinct := by
  refine ⟨rfl, by decide, by decide, ?_⟩
  unfold seatTripleDistinct
  decide

/-- C2 witness: the amended theorem at a successful two-student run with
distinct room_ids. -/
theorem success_conservation_witness :
    schedule okStudents okRooms defaultOptions = some okRes ∧
    okRes.success = true ∧
    (okRooms.map Room.room_id).Nodup ∧
    okRes.assignments.length = okStudents.length ∧
    okRes.assignments.Pairwise seatTripleDistinct :=
  ⟨rfl, by decide, by decide,
    (success_conservation okStudents okRooms defaultOptions okRes
      rfl (by decide)).1,
    (success_conservation okStudents okRooms defaultOptions okRes
      rfl (by decide)).2 (by decide)⟩

/-! ### Claims C9 and C10: capacity-safe distribution and termination -/

/-- C9: with positive room dimensions and enough total capacity, the
distributor never allocates beyond a room's capacity, so the seat
assigner seats every allocated student and the `overflow` branch never
fires; when the subject pre-check also passes, every student receives a
seat. -/
theorem alloc_within_capacity_no_overflow (students : List Student) (rooms : List Room)
    (hdim : ∀ r ∈ rooms, 0 < r.num_benches ∧ 0 < r.seats_per_bench)
    (hcap : students.length ≤ totalCapacity rooms) :
    ∃ res, greedyPairScheduler students rooms = some res ∧
      (∀ c ∈ res.diagnostics.conflicts, c.type ≠ "overflow") ∧
      (maxSubjectCount (groupBySubject students) ≤ (students.length + 1) / 2 →
        res.assignments.length = students.length) := by
  by_cases h2 : maxSubjectCount (groupBySubject students) ≤ (students.length + 1) / 2
  · obtain ⟨st, hg, hlen, htype, _⟩ := greedy_run_spec students rooms hcap h2
    refine ⟨finalizeRun st rooms, hg, ?_, fun _ => hlen⟩
    intro c hc
    have : c.type = "constraint" := htype c hc
    rw [this]
    decide
  · rw [greedy_infeasible_subject _ _ hcap (by omega)]
    refine ⟨_, rfl, ?_, fun h => absurd h h2⟩
    intro c hc
    simp only [List.mem_singleton] at hc
    subst hc
    show ("infeasible" : String) ≠ "overflow"
    decide

/-- C9 witness: the theorem at a small fully seatable input. -/
theorem alloc_within_capacity_no_overflow_witness :
    (∀ r ∈ okRooms, 0 < r.num_benches ∧ 0 < r.seats_per_bench) ∧
    okStudents.length ≤ totalCapacity okRooms ∧
    ∃ res, greedyPairScheduler okStudents okRooms = some res ∧
      (∀ c ∈ res.diagnostics.conflicts, c.type ≠ "overflow") ∧
      (maxSubjectCount (groupBySubject okStudents) ≤ (okStudents.length + 1) / 2 →
        res.assignments.length = okStudents.length) :=
  ⟨by decide, by decide,
    alloc_within_capacity_no_overflow okStudents okRooms (by decide) (by decide)⟩

/-- C10: with positive room dimensions and enough total capacity, the
round-robin distribution loop terminates — at every step some room still
has spare capacity — so the greedy scheduler returns a result instead of
diverging. -/
theorem round_robin_terminates (students : List Student) (rooms : List Room)
    (hdim : ∀ r ∈ rooms, 0 < r.num_benches ∧ 0 < r.seats_per_bench)
    (hcap : students.length ≤ totalCapacity rooms) :
    (greedyPairScheduler students rooms).isSome = true := by
  by_cases h2 : maxSubjectCount (groupBySubject students) ≤ (students.length + 1) / 2
  · obtain ⟨st, hg, _, _, _⟩ := greedy_run_spec students rooms hcap h2
    rw [hg]
    rfl
  · rw [greedy_infeasible_subject _ _ hcap (by omega)]
    rfl

/-- C10 witness: the theorem at a small concrete input. -/
theorem round_robin_terminates_witness :
    (∀ r ∈ okRooms, 0 < r.num_benches ∧ 0 < r.seats_per_bench) ∧
    okStudents.length ≤ totalCapacity okRooms ∧
    (greedyPairScheduler okStudents okRooms).isSome = true :=
  ⟨by decide, by decide, round_robin_terminates okStudents okRooms (by decide) (by decide)⟩

/-! ### Claim C8: preferred rooms are honored first come, first served -/

/-- C8: in input order (no seed), a student whose `preferred_room` matches
a room by name or id — the first such room, at index `j` — is assigned to
that room in the final result, provided that room is not yet at capacity
counting the preferred students served before them; the preferred pass
runs before any round-robin distribution. -/
theorem preferred_room_honored (students : List Student) (rooms : List Room)
    (opts : Options) (pre post : List Student) (stu : Student) (p : String)
    (j : Nat) (R : Room)
    (hseed : opts.seed = none)
    (hsplit : students = pre ++ stu :: post)
    (hval : validateConstraints students rooms = [])
    (hcap : students.length ≤ totalCapacity rooms)
    (hsubj : maxSubjectCount (groupBySubject students) ≤ (students.length + 1) / 2)
    (hp : stu.preferred_room = some p)
    (hm : matchRoomIdx rooms p = some j)
    (hR : rooms.get? j = some R)
    (hlen : allocLenAt (pre.foldl prefStep (initAllocs rooms, [])).1 j <
      R.num_benches * R.seats_per_bench) :
    ∃ res, schedule students rooms opts = some res ∧
      ∃ a ∈ res.assignments, a.student = stu ∧ a.room_id = R.room_id ∧
        a.room_name = R.room_name := by
  have hps : processedStudents students opts = students := by
    unfold processedStudents
    rw [hseed]
  obtain ⟨a1, a2, a3, a4⟩ := prefFold_spec pre (initAllocs rooms) []
  set AU := pre.foldl prefStep (initAllocs rooms, []) with hAU
  have hApairs : AU.1.map (fun ra => (ra.room, ra.capacity)) =
      rooms.map (fun r => (r, r.num_benches * r.seats_per_bench)) := by
    rw [a1, initAllocs_pairs]
  have hAroom : AU.1.map (fun ra => ra.room) = rooms := pairs_rooms hApairs
  have hpairj := congrArg (fun l => l.get? j) hApairs
  simp only [List.get?_map, hR] at hpairj
  obtain ⟨raj, hgetj, hpairRaj⟩ := Option.map_eq_some'.mp hpairj
  obtain ⟨hrajRoom, hrajCap⟩ := Prod.mk.injEq .. |>.mp hpairRaj
  have hlen2 : raj.students.length < raj.capacity := by
    have h3 : allocLenAt AU.1 j = raj.students.length := by
      unfold allocLenAt
      rw [hgetj]
      rfl
    omega
  obtain ⟨hplaced, hpushj⟩ :=
    prefAssign_places AU.1 stu p j raj (by rw [hAroom]; exact hm) hgetj hlen2
  have hstep : prefStep AU stu =
      ((prefAssign AU.1 stu p).1,
        if (prefAssign AU.1 stu p).2 then AU.2 else AU.2 ++ [stu]) := by
    simp [prefStep, hp]
  have hfold : preferredPass (initAllocs rooms) students =
      post.foldl prefStep (prefStep AU stu) := by
    unfold preferredPass
    rw [hsplit, List.foldl_append, List.foldl_cons, hAU]
  obtain ⟨b1, b2, b3, b4⟩ := prefFold_spec post (prefAssign AU.1 stu p).1 AU.2
  obtain ⟨raB, hgetB, hroomB, hmemB⟩ :=
    b4 j { raj with students := raj.students ++ [stu] } hpushj
  have hgetPass : (preferredPass (initAllocs rooms) students).1.get? j = some raB := by
    rw [hfold, hstep, if_pos hplaced]
    exact hgetB
  obtain ⟨ras2, hd, hpairs2, htot2, hle2, hmem2⟩ := distribution_spec students rooms hcap
  obtain ⟨ra3, hget3, hroom3, hmem3⟩ := hmem2 j raB hgetPass
  have hstuIn3 : stu ∈ ra3.students := hmem3 stu (hmemB stu (by simp))
  have hroom3R : ra3.room = R := by
    rw [hroom3, hroomB]
    exact hrajRoom
  have hgreedy : greedyPairScheduler students rooms =
      some (finalizeRun (ras2.foldl assignRoomSeats ⟨[], []⟩) rooms) := by
    unfold greedyPairScheduler
    rw [if_neg (by omega), if_neg (by omega), hd]
  have hsched : schedule students rooms opts =
      some (finalizeRun (ras2.foldl assignRoomSeats ⟨[], []⟩) rooms) := by
    unfold schedule
    rw [hval, if_neg (by simp), hps, hgreedy]
  obtain ⟨neu, newC, ha, hc, _, _, _, _, hmem4⟩ :=
    seatAll_spec ras2 ⟨[], []⟩ (fun ra h => ⟨hle2 ra h, pairs_capEq hpairs2 ra h⟩)
  obtain ⟨a, haMem, haStu, haId, haName⟩ :=
    hmem4 ra3 (List.get?_mem hget3) stu hstuIn3
  refine ⟨finalizeRun (ras2.foldl assignRoomSeats ⟨[], []⟩) rooms, hsched, a, ?_, haStu,
    ?_, ?_⟩
  · show a ∈ (ras2.foldl assignRoomSeats ⟨[], []⟩).assignments
    rw [ha]
    simpa using haMem
  · rw [haId, hroom3R]
  · rw [haName, hroom3R]

/-- C8 witness: two students both prefer "Room 1"; the second one is
honored while the room still has a free seat. -/
theorem preferred_room_honored_witness :
    c8Students = [⟨"1", "P1", "A", some "Room 1"⟩] ++
      (⟨"2", "P2", "B", some "Room 1"⟩ : Student) :: [] ∧
    validateConstraints c8Students c8Rooms = [] ∧
    c8Students.length ≤ totalCapacity c8Rooms ∧
    maxSubjectCount (groupBySubject c8Students) ≤ (c8Students.length + 1) / 2 ∧
    matchRoomIdx c8Rooms "Room 1" = some 0 ∧
    c8Rooms.get? 0 = some ⟨"R1", "Room 1", 1, 2⟩ ∧
    allocLenAt
      (([⟨"1", "P1", "A", some "Room 1"⟩] :
        List Student).foldl prefStep (initAllocs c8Rooms, [])).1 0 < 1 * 2 ∧
    ∃ res, schedule c8Students c8Rooms defaultOptions = some res ∧
      ∃ a ∈ res.assignments,
        a.student = (⟨"2", "P2", "B", some "Room 1"⟩ : Student) ∧
        a.room_id = "R1" ∧ a.room_name = "Room 1" :=
  ⟨by decide, by decide, by decide, by decide, by decide, by decide, by decide,
    preferred_room_honored c8Students c8Rooms defaultOptions
      [⟨"1", "P1", "A", some "Room 1"⟩] [] ⟨"2", "P2", "B", some "Room 1"⟩
      "Room 1" 0 ⟨"R1", "Room 1", 1, 2⟩
      rfl (by decide) (by decide) (by decide) (by decide) rfl (by decide) rfl (by decide)⟩

end Seating
